import Mathlib

set_option maxHeartbeats 1000000

/-!
Verification development for the reflection baker of
`src/core/src/core/reflection_baker.cpp`.

The file shallowly embeds `ReflectionBaker::bake` and `ReflectionBaker::cancel`
together with the small slice of the surrounding data model they touch.
Machine floats (durations, progress fractions) are modelled as `Nat`
respectively `ℚ`: the baker only ever compares durations for equality and
forms the exact quotient `(i + 1) / numProbes`.  The external collaborators
(the acoustic simulator, the reverb estimator) are abstracted as oracles
carried in the parameter record, as the spec declares them out of scope.
Observable behaviour (simulator calls, job-graph runs, WAV dumps, progress
callbacks, cancellation checks) is recorded as an event trace.
-/

namespace SteamAudio

/-- Scene/backend selector (`SceneType` in the C++ sources); `RadeonRays` is the
GPU many-to-many ray-tracing backend, every other value is a CPU backend. -/
inductive SceneType
  | Default
  | Embree
  | RadeonRays
  | Custom
deriving DecidableEq

/-- Baked-data type tag (`BakedDataType`). -/
inductive BakedDataType
  | Reflections
  | Pathing
deriving DecidableEq

/-- Baked-data variation tag (`BakedDataVariation`). -/
inductive BakedDataVariation
  | Reverb
  | StaticSource
  | StaticListener
  | Dynamic
deriving DecidableEq

/-- Modelled from the spec: a 3-D point with integer coordinates; the C++
vector type is not under `src/`, and the baker only ever feeds points to the
spatial predicate `contains` and to the endpoint arrays. -/
structure Vector3 where
  x : Int
  y : Int
  z : Int
deriving DecidableEq

/-- Modelled from the spec: a spatial influence region ("center plus a
`contains(point) → bool` predicate"); the C++ `Sphere` is not under `src/`. -/
structure Sphere where
  center : Vector3
  radius : Int
deriving DecidableEq

/-- Modelled from the spec: membership in the influence region, a decidable
spatial predicate (squared distance to the center at most squared radius). -/
def Sphere.contains (s : Sphere) (p : Vector3) : Bool :=
  decide ((p.x - s.center.x) ^ 2 + (p.y - s.center.y) ^ 2 + (p.z - s.center.z) ^ 2 ≤ s.radius ^ 2)

/-- Modelled from the spec: a probe is a position with an influence region;
the baker reads only `probe.influence.center`. -/
structure Probe where
  influence : Sphere
deriving DecidableEq

/-- Immutable baked-data key (`BakedDataIdentifier`). -/
structure BakedDataIdentifier where
  type : BakedDataType
  variation : BakedDataVariation
  endpointInfluence : Sphere
deriving DecidableEq

/-- An energy field: a time-banded impulse-response buffer of a fixed
`duration` and ambisonic `order`.  The buffer contents are abstracted to a
list of samples, with `duration` doubling as the sample capacity. -/
structure EnergyField where
  duration : Nat
  order : Nat
  data : List Int
deriving DecidableEq

/-- Modelled from the spec: `EnergyField::copyFrom` copies the source field's
content into the destination, truncating to the destination's capacity and
leaving the destination's zero fill beyond the copied prefix (the C++
implementation is not under `src/`). -/
def EnergyField.copyFrom (dst src : EnergyField) : EnergyField :=
  { dst with data := src.data.take dst.duration ++ List.replicate (dst.duration - src.data.length) 0 }

/-- Parametric reverb descriptor, abstracted to its payload (produced only by
the external estimator oracle). -/
abbrev Reverb := Int

/-- Modelled from the spec: per-probe persistent storage for one identifier
(`BakedReflectionsData`), sized to the batch's probe count at construction,
holding an optional `Reverb` and an optional owned `EnergyField` per probe
plus the two capability flags. -/
structure BakedReflectionsData where
  identifier : BakedDataIdentifier
  numProbes : Nat
  hasConvolution : Bool
  hasParametric : Bool
  reverbs : List (Option Reverb)
  fields : List (Option EnergyField)
deriving DecidableEq

/-- Modelled from the spec: a freshly constructed store has empty per-probe
entries and capability flags given by the requested outputs. -/
def BakedReflectionsData.init (identifier : BakedDataIdentifier) (numProbes : Nat)
    (hasConvolution hasParametric : Bool) : BakedReflectionsData :=
  { identifier := identifier
    numProbes := numProbes
    hasConvolution := hasConvolution
    hasParametric := hasParametric
    reverbs := List.replicate numProbes none
    fields := List.replicate numProbes none }

/-- Modelled from the spec: the capability flags are "set whenever the
corresponding bake pass runs" and "accumulate capability rather than
overwrite", so requesting an output turns its flag on and never turns the
other off. -/
def BakedReflectionsData.setHasConvolution (d : BakedReflectionsData) (b : Bool) : BakedReflectionsData :=
  { d with hasConvolution := d.hasConvolution || b }

/-- Modelled from the spec: see `BakedReflectionsData.setHasConvolution`. -/
def BakedReflectionsData.setHasParametric (d : BakedReflectionsData) (b : Bool) : BakedReflectionsData :=
  { d with hasParametric := d.hasParametric || b }

/-- `BakedReflectionsData::set(index, reverb)`: store a reverb at a probe's
original index (out-of-range writes are impossible in the sized C++ store and
are no-ops here). -/
def BakedReflectionsData.setReverb (d : BakedReflectionsData) (i : Nat) (r : Reverb) : BakedReflectionsData :=
  { d with reverbs := d.reverbs.set i (some r) }

/-- `BakedReflectionsData::set(index, std::move(energyField))`: store an owned
energy field at a probe's original index. -/
def BakedReflectionsData.setField (d : BakedReflectionsData) (i : Nat) (f : EnergyField) : BakedReflectionsData :=
  { d with fields := d.fields.set i (some f) }

/-- First entry of an association list with the given identifier key. -/
def findData : List (BakedDataIdentifier × BakedReflectionsData) → BakedDataIdentifier → Option BakedReflectionsData
  | [], _ => none
  | kv :: rest, id => if kv.1 = id then some kv.2 else findData rest id

/-- Modelled from the spec: a probe batch is an ordered probe list owning at
most one `BakedReflectionsData` per identifier (`ProbeBatch`). -/
structure ProbeBatch where
  probes : List Probe
  data : List (BakedDataIdentifier × BakedReflectionsData)
deriving DecidableEq

/-- `ProbeBatch::operator[](identifier)`, partial lookup. -/
def ProbeBatch.getData (pb : ProbeBatch) (id : BakedDataIdentifier) : Option BakedReflectionsData :=
  findData pb.data id

/-- `ProbeBatch::hasData(identifier)`. -/
def ProbeBatch.hasData (pb : ProbeBatch) (id : BakedDataIdentifier) : Bool :=
  (pb.getData id).isSome

/-- `ProbeBatch::addData(identifier, data)`: attach a store for a new
identifier. -/
def ProbeBatch.addData (pb : ProbeBatch) (id : BakedDataIdentifier) (d : BakedReflectionsData) : ProbeBatch :=
  { pb with data := pb.data ++ [(id, d)] }

/-- In-place mutation of the store owned for `id` (the C++ code mutates the
object returned by `probeBatch[identifier]`; no store is ever replaced). -/
def ProbeBatch.modifyData (pb : ProbeBatch) (id : BakedDataIdentifier)
    (f : BakedReflectionsData → BakedReflectionsData) : ProbeBatch :=
  { pb with data := pb.data.map fun kv => if kv.1 = id then (kv.1, f kv.2) else kv }

/-- Stored reverb for probe `i` under identifier `id` (`none` when the store
or the entry is absent). -/
def ProbeBatch.reverbAt (pb : ProbeBatch) (id : BakedDataIdentifier) (i : Nat) : Option Reverb :=
  match pb.getData id with
  | some d => d.reverbs.getD i none
  | none => none

/-- Stored energy field for probe `i` under identifier `id`. -/
def ProbeBatch.fieldAt (pb : ProbeBatch) (id : BakedDataIdentifier) (i : Nat) : Option EnergyField :=
  match pb.getData id with
  | some d => d.fields.getD i none
  | none => none

/-- The `hasConvolution` capability flag (`false` when no store exists). -/
def ProbeBatch.convFlag (pb : ProbeBatch) (id : BakedDataIdentifier) : Bool :=
  match pb.getData id with
  | some d => d.hasConvolution
  | none => false

/-- The `hasParametric` capability flag (`false` when no store exists). -/
def ProbeBatch.parFlag (pb : ProbeBatch) (id : BakedDataIdentifier) : Bool :=
  match pb.getData id with
  | some d => d.hasParametric
  | none => false

/-- The store for `id`, when present, is sized to the probe list (the C++
store is constructed with `probeBatch.numProbes()` slots). -/
def ProbeBatch.dataSizedB (pb : ProbeBatch) (id : BakedDataIdentifier) : Bool :=
  match pb.getData id with
  | some d => decide (d.reverbs.length = pb.probes.length) && decide (d.fields.length = pb.probes.length)
  | none => true

/-- Observable steps of one bake invocation, in program order. -/
inductive BakeEvent
  | simulate (numValidInBatch numSources numListeners : Nat)
  | jobRun
  | wavWrite (probeIndex : Nat) (filePath : String)
      (sampleRate numChannels bitsPerSample : Nat) (sourceField : Option EnergyField)
  | progress (value : ℚ)
  | cancelCheck (observed : Bool)
deriving DecidableEq

/-- Inputs of `ReflectionBaker::bake`.  `simOut` abstracts the external
simulator (the sample data the batch's job graph deposits in the energy field
pre-allocated for the probe with the given original index) and `estimate`
abstracts `ReverbEstimator::estimate` applied with the default-constructed
air absorption model; both are opaque collaborators per the spec.  The pure
pass-through arguments (`numRays`, `numBounces`, `numThreads`,
`irradianceMinDistance`, the scene handle, the OpenCL device) do not affect
any observable modelled here and are omitted. -/
structure BakeParams where
  identifier : BakedDataIdentifier
  bakeConvolution : Bool
  bakeParametric : Bool
  simDuration : Nat
  bakeDuration : Nat
  order : Nat
  bakeBatchSize : Nat
  sceneType : SceneType
  hasCallback : Bool
  simOut : Nat → List Int
  estimate : EnergyField → Reverb

/-- Lines 101-104: the requested batch size is forced to 1 unless the backend
is the GPU ray tracer or the variation is `StaticListener`. -/
def effectiveBatchSize (sceneType : SceneType) (variation : BakedDataVariation) (bakeBatchSize : Nat) : Nat :=
  if sceneType ≠ SceneType.RadeonRays ∧ variation ≠ BakedDataVariation.StaticListener then 1
  else bakeBatchSize

/-- Lines 132-157: probe eligibility for the current identifier.  `Reverb`
accepts every probe; the static variations require the probe center to lie in
the identifier's endpoint influence region; `Dynamic` never matches a branch
(and is excluded by an assertion anyway). -/
def probeEligible (identifier : BakedDataIdentifier) (p : Probe) : Bool :=
  match identifier.variation with
  | BakedDataVariation.Reverb => true
  | BakedDataVariation.StaticSource => identifier.endpointInfluence.contains p.influence.center
  | BakedDataVariation.StaticListener => identifier.endpointInfluence.contains p.influence.center
  | BakedDataVariation.Dynamic => false

/-- Lines 170-192: endpoint counts handed to the simulator for a closed batch
with `numValidInBatch` eligible probes: `(numValidInBatch, 1)` by default, and
per-variation many-to-many shapes on the GPU backend. -/
def endpointCounts (sceneType : SceneType) (variation : BakedDataVariation) (numValidInBatch : Nat) : Nat × Nat :=
  if sceneType = SceneType.RadeonRays then
    match variation with
    | BakedDataVariation.StaticSource => (1, numValidInBatch)
    | BakedDataVariation.StaticListener => (numValidInBatch, 1)
    | BakedDataVariation.Reverb => (numValidInBatch, numValidInBatch)
    | BakedDataVariation.Dynamic => (numValidInBatch, 1)
  else (numValidInBatch, 1)

/-- The energy field for original probe index `idx` as the simulator leaves it
after the batch's job graph has run: allocated by the factory at
`simDuration`/`order` (line 162) and filled with the oracle's data. -/
def simulatedField (P : BakeParams) (idx : Nat) : EnergyField :=
  { duration := P.simDuration, order := P.order, data := P.simOut idx }

/-- Lines 226-237: the field that ends up in storage for probe `idx` when
convolution output is requested: the simulated field itself when
`simDuration == bakeDuration` (ownership moved), otherwise a fresh field of
duration `bakeDuration` and the same order with the simulated content copied
and truncated into it. -/
def storedFieldFor (P : BakeParams) (idx : Nat) : EnergyField :=
  if P.simDuration = P.bakeDuration then simulatedField P idx
  else
    EnergyField.copyFrom
      { duration := P.bakeDuration, order := P.order, data := List.replicate P.bakeDuration 0 }
      (simulatedField P idx)

/-- Line 240: the state of the `energyFields[j]` slot when the WAV dump reads
it.  When `simDuration == bakeDuration` the `unique_ptr` was moved into
storage on line 230, so the slot is empty and the dereference on line 240 hits
a null pointer; otherwise the slot still owns the simulated field. -/
def wavSlotAfterMove (P : BakeParams) (idx : Nat) : Option EnergyField :=
  if P.simDuration = P.bakeDuration then none else some (simulatedField P idx)

/-- Lines 240-243: the diagnostic WAV dump for probe `idx`: fixed path,
44100 Hz, mono, 32-bit float, sourced from whatever the `energyFields[j]`
slot still holds. -/
def wavEventFor (P : BakeParams) (idx : Nat) : BakeEvent :=
  BakeEvent.wavWrite idx ("output/impulse_response_" ++ toString idx ++ ".wav") 44100 1 32
    (wavSlotAfterMove P idx)

/-- Lines 211-220: the parametric pass over a closed batch, storing an
estimated reverb at each eligible probe's original index. -/
def parametricPass (P : BakeParams) (chunk : List Nat) (pb : ProbeBatch) : ProbeBatch :=
  chunk.foldl
    (fun acc idx =>
      acc.modifyData P.identifier fun d => d.setReverb idx (P.estimate (simulatedField P idx)))
    pb

/-- Lines 222-245 (store effect): the convolution pass over a closed batch,
storing the finalized energy field at each eligible probe's original index. -/
def convolutionPass (P : BakeParams) (chunk : List Nat) (pb : ProbeBatch) : ProbeBatch :=
  chunk.foldl
    (fun acc idx => acc.modifyData P.identifier fun d => d.setField idx (storedFieldFor P idx))
    pb

/-- Storage mutations performed when a batch closes (lines 211-245): the
parametric loop runs first, then the convolution loop. -/
def closeBatchStore (P : BakeParams) (chunk : List Nat) (pb : ProbeBatch) : ProbeBatch :=
  let pb1 := if P.bakeParametric then parametricPass P chunk pb else pb
  if P.bakeConvolution then convolutionPass P chunk pb1 else pb1

/-- Events emitted when the batch closing at probe index `i` with eligible
original indices `chunk` is processed (lines 168-252, cancellation check
excluded): the simulator call with the adapted endpoint counts, the blocking
job-graph run, one WAV dump per eligible probe when convolution is requested,
and one progress callback when a callback was supplied. -/
def closeBatchEvents (P : BakeParams) (n i : Nat) (chunk : List Nat) : List BakeEvent :=
  let k := chunk.length
  let sl := endpointCounts P.sceneType P.identifier.variation k
  [BakeEvent.simulate k sl.1 sl.2, BakeEvent.jobRun]
    ++ (if P.bakeConvolution then chunk.map (wavEventFor P) else [])
    ++ (if P.hasCallback then [BakeEvent.progress (((i : ℚ) + 1) / (n : ℚ))] else [])

/-- Lines 130-260: the bake loop.  `i` is the current probe index, `pending`
the original indices collected for the current batch (`indices[0..numValid)`),
`batchNo` counts closed batches, and `flag` is the current value of the shared
`sCancel` flag; `sig batchNo` tells whether a cancellation request is pending
when the flag is polled after batch `batchNo` (requests arrive asynchronously
and are observed only at batch boundaries).  Returns the mutated probe batch,
the event trace, and the final value of `sCancel`. -/
def bakeLoop (P : BakeParams) (n B : Nat) (sig : Nat → Bool) :
    List Probe → Nat → List Nat → Nat → Bool → ProbeBatch → ProbeBatch × List BakeEvent × Bool
  | [], _, _, _, flag, pb => (pb, [], flag)
  | p :: rest, i, pending, batchNo, flag, pb =>
    let pending' := if probeEligible P.identifier p then pending ++ [i] else pending
    if pending'.length = B ∨ i = n - 1 then
      let pb' := closeBatchStore P pending' pb
      let evts := closeBatchEvents P n i pending'
      if flag || sig batchNo then
        (pb', evts ++ [BakeEvent.cancelCheck true], false)
      else
        let res := bakeLoop P n B sig rest (i + 1) [] (batchNo + 1) false pb'
        (res.1, evts ++ [BakeEvent.cancelCheck false] ++ res.2.1, res.2.2)
    else
      bakeLoop P n B sig rest (i + 1) pending' batchNo flag pb

/-- The process-wide flags `ReflectionBaker::sCancel` and
`ReflectionBaker::sBakeInProgress` (lines 71-72). -/
structure GlobalFlags where
  sCancel : Bool
  sBakeInProgress : Bool
deriving DecidableEq

/-- Result of one `bake` invocation: the mutated probe batch, the observable
event trace, and the final values of the two shared flags. -/
structure BakeResult where
  probeBatch : ProbeBatch
  events : List BakeEvent
  sCancelFinal : Bool
  sBakeInProgressFinal : Bool
deriving DecidableEq

/-- `ReflectionBaker::bake` (lines 74-263): compute the effective batch size,
create the per-identifier store on first use (lines 106-113), set the
capability flags (lines 115-116), then run the batching loop.  The assertion
preconditions of lines 95-97 appear as hypotheses of the theorems below. -/
def ReflectionBaker.bake (P : BakeParams) (g : GlobalFlags) (sig : Nat → Bool) (pb : ProbeBatch) : BakeResult :=
  let n := pb.probes.length
  let B := effectiveBatchSize P.sceneType P.identifier.variation P.bakeBatchSize
  let pb0 :=
    if pb.hasData P.identifier then pb
    else pb.addData P.identifier (BakedReflectionsData.init P.identifier n P.bakeConvolution P.bakeParametric)
  let pb1 := pb0.modifyData P.identifier fun d =>
    (d.setHasConvolution P.bakeConvolution).setHasParametric P.bakeParametric
  let r := bakeLoop P n B sig pb.probes 0 [] 0 g.sCancel pb1
  { probeBatch := r.1, events := r.2.1, sCancelFinal := r.2.2, sBakeInProgressFinal := false }

/-- `ReflectionBaker::cancel` (lines 265-271): request cancellation only when
a bake is in progress. -/
def ReflectionBaker.cancel (g : GlobalFlags) : GlobalFlags :=
  if g.sBakeInProgress then { g with sCancel := true } else g

/-- The eligible-probe count of a `simulate` event. -/
def simValidCount : BakeEvent → Option Nat
  | BakeEvent.simulate k _ _ => some k
  | _ => none

/-- The full argument triple of a `simulate` event. -/
def simTriple : BakeEvent → Option (Nat × Nat × Nat)
  | BakeEvent.simulate k s l => some (k, s, l)
  | _ => none

/-- The fraction reported by a `progress` event. -/
def progressValue : BakeEvent → Option ℚ
  | BakeEvent.progress v => some v
  | _ => none

/-- Whether an event is a WAV dump. -/
def isWavWrite : BakeEvent → Bool
  | BakeEvent.wavWrite _ _ _ _ _ _ => true
  | _ => false

/-- Eligibility of the probe at position `j` of the probe list. -/
def eligAt (identifier : BakedDataIdentifier) (probes : List Probe) (j : Nat) : Bool :=
  match probes[j]? with
  | some p => probeEligible identifier p
  | none => false

/-- The batch structure the bake loop realizes: walking probe indices
`i, i+1, …` over `m` remaining probes with `pending` eligible indices already
collected, emit one `(closeIndex, eligibleIndices)` entry per closed batch
(closure at `B` collected indices or at the final probe index `n - 1`). -/
def closePoints (e : Nat → Bool) (B n : Nat) : Nat → Nat → List Nat → List (Nat × List Nat)
  | _, 0, _ => []
  | i, m + 1, pending =>
    let pending' := if e i then pending ++ [i] else pending
    if pending'.length = B ∨ i = n - 1 then (i, pending') :: closePoints e B n (i + 1) m []
    else closePoints e B n (i + 1) m pending'

/-- Replay of the bake loop over a precomputed batch plan: process each entry
in order, polling the cancellation signal after each one. -/
def runPlan (P : BakeParams) (n : Nat) (sig : Nat → Bool) :
    List (Nat × List Nat) → Nat → Bool → ProbeBatch → ProbeBatch × List BakeEvent × Bool
  | [], _, flag, pb => (pb, [], flag)
  | entry :: rest, b, flag, pb =>
    let pb' := closeBatchStore P entry.2 pb
    let evts := closeBatchEvents P n entry.1 entry.2
    if flag || sig b then
      (pb', evts ++ [BakeEvent.cancelCheck true], false)
    else
      let res := runPlan P n sig rest (b + 1) false pb'
      (res.1, evts ++ [BakeEvent.cancelCheck false] ++ res.2.1, res.2.2)

/-- The prefix of a batch plan that actually executes: everything up to and
including the first entry whose boundary observes a cancellation request. -/
def execEntries (sig : Nat → Bool) : List (Nat × List Nat) → Nat → Bool → List (Nat × List Nat)
  | [], _, _ => []
  | entry :: rest, b, flag =>
    if flag || sig b then [entry] else entry :: execEntries sig rest (b + 1) false

/-- The batch plan of one bake invocation over a probe batch. -/
def bakePlan (P : BakeParams) (pb : ProbeBatch) : List (Nat × List Nat) :=
  closePoints (eligAt P.identifier pb.probes)
    (effectiveBatchSize P.sceneType P.identifier.variation P.bakeBatchSize)
    pb.probes.length 0 pb.probes.length []

/-- The batches a bake invocation actually processes before stopping. -/
def executedBatches (P : BakeParams) (g : GlobalFlags) (sig : Nat → Bool) (pb : ProbeBatch) :
    List (Nat × List Nat) :=
  execEntries sig (bakePlan P pb) 0 g.sCancel

/-- The probe batch as the pre-loop part of `bake` leaves it: the store
created on first use and the capability flags set (lines 106-116). -/
def bakePrep (P : BakeParams) (pb : ProbeBatch) : ProbeBatch :=
  let pb0 :=
    if pb.hasData P.identifier then pb
    else pb.addData P.identifier
      (BakedReflectionsData.init P.identifier pb.probes.length P.bakeConvolution P.bakeParametric)
  pb0.modifyData P.identifier fun d =>
    (d.setHasConvolution P.bakeConvolution).setHasParametric P.bakeParametric

/-- Length of the stored reverb array for `id` (0 when no store exists). -/
def revLen (pb : ProbeBatch) (id : BakedDataIdentifier) : Nat :=
  match pb.getData id with
  | some d => d.reverbs.length
  | none => 0

/-- Length of the stored energy-field array for `id` (0 when no store exists). -/
def fldLen (pb : ProbeBatch) (id : BakedDataIdentifier) : Nat :=
  match pb.getData id with
  | some d => d.fields.length
  | none => 0

/-- A degenerate sphere at the origin, used by the concrete witnesses. -/
def sphereZero : Sphere := ⟨⟨0, 0, 0⟩, 0⟩

/-- A probe at the origin. -/
def probeZero : Probe := ⟨sphereZero⟩

/-- A probe far outside `sphereZero` and the unit sphere at the origin. -/
def probeFar : Probe := ⟨⟨⟨5, 5, 5⟩, 0⟩⟩

/-- A `Reflections`/`Reverb` identifier. -/
def reverbIdent : BakedDataIdentifier :=
  ⟨BakedDataType.Reflections, BakedDataVariation.Reverb, sphereZero⟩

/-- A `Reflections`/`StaticSource` identifier whose influence region is the
unit sphere at the origin. -/
def staticSourceIdent : BakedDataIdentifier :=
  ⟨BakedDataType.Reflections, BakedDataVariation.StaticSource, ⟨⟨0, 0, 0⟩, 1⟩⟩

/-- Canonical concrete bake parameters for witnesses: CPU backend, parametric
only, batch size 4, trivial oracles. -/
def baseParams : BakeParams :=
  { identifier := reverbIdent
    bakeConvolution := false
    bakeParametric := true
    simDuration := 1
    bakeDuration := 1
    order := 0
    bakeBatchSize := 4
    sceneType := SceneType.Default
    hasCallback := false
    simOut := fun _ => []
    estimate := fun _ => 0 }

/-! Store primitives. -/

theorem findData_append_of_none (l1 l2 : List (BakedDataIdentifier × BakedReflectionsData))
    (id : BakedDataIdentifier) (h : findData l1 id = none) :
    findData (l1 ++ l2) id = findData l2 id := by
  induction l1 with
  | nil => simp [findData]
  | cons kv rest ih =>
    simp only [findData] at h ⊢
    split at h
    · exact absurd h (by simp)
    · rename_i hne
      rw [if_neg hne]
      exact ih h

theorem findData_map_if_self (l : List (BakedDataIdentifier × BakedReflectionsData))
    (id : BakedDataIdentifier) (f : BakedReflectionsData → BakedReflectionsData) :
    findData (l.map fun kv => if kv.1 = id then (kv.1, f kv.2) else kv) id
      = (findData l id).map f := by
  induction l with
  | nil => simp [findData]
  | cons kv rest ih =>
    by_cases h : kv.1 = id
    · simp [findData, h, ih]
    · simp [findData, h, ih]

theorem findData_map_if_ne (l : List (BakedDataIdentifier × BakedReflectionsData))
    (id id' : BakedDataIdentifier) (f : BakedReflectionsData → BakedReflectionsData)
    (h : id' ≠ id) :
    findData (l.map fun kv => if kv.1 = id then (kv.1, f kv.2) else kv) id' = findData l id' := by
  induction l with
  | nil => simp [findData]
  | cons kv rest ih =>
    by_cases hk : kv.1 = id
    · have hk' : kv.1 ≠ id' := by rw [hk]; exact fun he => h he.symm
      simp only [List.map_cons, if_pos hk, findData]
      rw [if_neg hk', if_neg hk', ih]
    · simp only [List.map_cons, if_neg hk, findData, ih]

theorem getData_modifyData_self (pb : ProbeBatch) (id : BakedDataIdentifier)
    (f : BakedReflectionsData → BakedReflectionsData) :
    (pb.modifyData id f).getData id = (pb.getData id).map f :=
  findData_map_if_self pb.data id f

theorem getData_modifyData_ne (pb : ProbeBatch) (id id' : BakedDataIdentifier)
    (f : BakedReflectionsData → BakedReflectionsData) (h : id' ≠ id) :
    (pb.modifyData id f).getData id' = pb.getData id' :=
  findData_map_if_ne pb.data id id' f h

theorem getData_addData_of_none (pb : ProbeBatch) (id : BakedDataIdentifier)
    (d : BakedReflectionsData) (h : pb.getData id = none) :
    (pb.addData id d).getData id = some d := by
  show findData (pb.data ++ [(id, d)]) id = some d
  rw [findData_append_of_none pb.data [(id, d)] id h]
  simp [findData]

theorem probes_modifyData (pb : ProbeBatch) (id : BakedDataIdentifier)
    (f : BakedReflectionsData → BakedReflectionsData) :
    (pb.modifyData id f).probes = pb.probes := rfl

theorem probes_addData (pb : ProbeBatch) (id : BakedDataIdentifier) (d : BakedReflectionsData) :
    (pb.addData id d).probes = pb.probes := rfl

theorem modifyData_modifyData (pb : ProbeBatch) (id : BakedDataIdentifier)
    (f g : BakedReflectionsData → BakedReflectionsData) :
    (pb.modifyData id f).modifyData id g = pb.modifyData id (fun d => g (f d)) := by
  cases pb with
  | mk probes data =>
    simp only [ProbeBatch.modifyData, List.map_map, ProbeBatch.mk.injEq, true_and]
    apply List.map_congr_left
    intro kv _
    by_cases h : kv.1 = id
    · simp [Function.comp, h]
    · simp [Function.comp, h]

theorem modifyData_id_eq (pb : ProbeBatch) (id : BakedDataIdentifier) :
    pb.modifyData id (fun d => d) = pb := by
  cases pb with
  | mk probes data =>
    simp only [ProbeBatch.modifyData, ProbeBatch.mk.injEq, true_and]
    have : (fun kv : BakedDataIdentifier × BakedReflectionsData =>
        if kv.1 = id then (kv.1, kv.2) else kv) = fun kv => kv := by
      funext kv
      by_cases h : kv.1 = id
      · rw [if_pos h]
      · rw [if_neg h]
    rw [this, List.map_id']

/-! List-level facts about folds of `List.set`. -/

theorem set_getD_self {α : Type} (l : List (Option α)) (i : Nat) (x : Option α) :
    (l.set i x).getD i none = if i < l.length then x else l.getD i none := by
  by_cases h : i < l.length
  · rw [if_pos h, List.getD_eq_getElem?_getD, List.getElem?_set_self h]
    rfl
  · have hh : l.length ≤ i := Nat.le_of_not_lt h
    rw [if_neg h, List.getD_eq_getElem?_getD, List.getD_eq_getElem?_getD,
      List.getElem?_eq_none (by simpa using hh), List.getElem?_eq_none hh]

theorem set_getD_ne {α : Type} (l : List (Option α)) (i j : Nat) (x : Option α) (h : j ≠ i) :
    (l.set i x).getD j none = l.getD j none := by
  rw [List.getD_eq_getElem?_getD, List.getD_eq_getElem?_getD, List.getElem?_set_ne (fun he => h he.symm)]

theorem setFold_length {α : Type} (c : List Nat) (v : Nat → α) (l : List (Option α)) :
    (c.foldl (fun l j => l.set j (some (v j))) l).length = l.length := by
  induction c generalizing l with
  | nil => rfl
  | cons j rest ih => simp [ih]

theorem setFold_getD {α : Type} (c : List Nat) (v : Nat → α) (l : List (Option α)) (idx : Nat) :
    (c.foldl (fun l j => l.set j (some (v j))) l).getD idx none
      = if idx ∈ c ∧ idx < l.length then some (v idx) else l.getD idx none := by
  induction c generalizing l with
  | nil => simp
  | cons j rest ih =>
    rw [List.foldl_cons, ih]
    rw [List.length_set]
    by_cases hm : idx ∈ rest
    · by_cases hl : idx < l.length
      · rw [if_pos ⟨hm, hl⟩, if_pos ⟨List.mem_cons_of_mem j hm, hl⟩]
      · rw [if_neg (fun hc => hl hc.2), if_neg (fun hc => hl hc.2)]
        by_cases hj : idx = j
        · subst hj
          exact set_getD_self l idx _ |>.trans (if_neg hl)
        · exact set_getD_ne l j idx _ hj
    · by_cases hj : idx = j
      · subst hj
        rw [if_neg (fun hc => hm hc.1)]
        rw [set_getD_self]
        by_cases hl : idx < l.length
        · rw [if_pos hl, if_pos ⟨List.mem_cons_self idx rest, hl⟩]
        · rw [if_neg hl, if_neg (fun hc => hl hc.2)]
      · rw [if_neg (fun hc => hm hc.1), set_getD_ne l j idx _ hj]
        rw [if_neg]
        intro hc
        rcases List.mem_cons.mp hc.1 with h1 | h1
        · exact hj h1
        · exact hm h1

/-! Characterizations of the post-processing passes. -/

theorem parametricPass_eq (P : BakeParams) (c : List Nat) (pb : ProbeBatch) :
    parametricPass P c pb = pb.modifyData P.identifier (fun d =>
      { d with reverbs := c.foldl (fun l j => l.set j (some (P.estimate (simulatedField P j)))) d.reverbs }) := by
  induction c generalizing pb with
  | nil =>
    show pb = pb.modifyData P.identifier fun d => d
    rw [modifyData_id_eq]
  | cons j rest ih =>
    show parametricPass P rest _ = _
    rw [ih, modifyData_modifyData]
    rfl

theorem convolutionPass_eq (P : BakeParams) (c : List Nat) (pb : ProbeBatch) :
    convolutionPass P c pb = pb.modifyData P.identifier (fun d =>
      { d with fields := c.foldl (fun l j => l.set j (some (storedFieldFor P j))) d.fields }) := by
  induction c generalizing pb with
  | nil =>
    show pb = pb.modifyData P.identifier fun d => d
    rw [modifyData_id_eq]
  | cons j rest ih =>
    show convolutionPass P rest _ = _
    rw [ih, modifyData_modifyData]
    rfl

theorem reverbAt_parametricPass (P : BakeParams) (c : List Nat) (pb : ProbeBatch) (idx : Nat) :
    (parametricPass P c pb).reverbAt P.identifier idx
      = if idx ∈ c ∧ idx < revLen pb P.identifier
        then some (P.estimate (simulatedField P idx))
        else pb.reverbAt P.identifier idx := by
  rw [parametricPass_eq]
  unfold ProbeBatch.reverbAt revLen
  rw [getData_modifyData_self]
  cases h : pb.getData P.identifier with
  | none => simp
  | some d => simpa using setFold_getD c _ d.reverbs idx

theorem fieldAt_convolutionPass (P : BakeParams) (c : List Nat) (pb : ProbeBatch) (idx : Nat) :
    (convolutionPass P c pb).fieldAt P.identifier idx
      = if idx ∈ c ∧ idx < fldLen pb P.identifier
        then some (storedFieldFor P idx)
        else pb.fieldAt P.identifier idx := by
  rw [convolutionPass_eq]
  unfold ProbeBatch.fieldAt fldLen
  rw [getData_modifyData_self]
  cases h : pb.getData P.identifier with
  | none => simp
  | some d => simpa using setFold_getD c _ d.fields idx

theorem fieldAt_parametricPass (P : BakeParams) (c : List Nat) (pb : ProbeBatch)
    (id : BakedDataIdentifier) (idx : Nat) :
    (parametricPass P c pb).fieldAt id idx = pb.fieldAt id idx := by
  rw [parametricPass_eq]
  unfold ProbeBatch.fieldAt
  by_cases h : id = P.identifier
  · subst h
    rw [getData_modifyData_self]
    cases hx : pb.getData P.identifier <;> rfl
  · rw [getData_modifyData_ne pb P.identifier id _ h]

theorem reverbAt_convolutionPass (P : BakeParams) (c : List Nat) (pb : ProbeBatch)
    (id : BakedDataIdentifier) (idx : Nat) :
    (convolutionPass P c pb).reverbAt id idx = pb.reverbAt id idx := by
  rw [convolutionPass_eq]
  unfold ProbeBatch.reverbAt
  by_cases h : id = P.identifier
  · subst h
    rw [getData_modifyData_self]
    cases hx : pb.getData P.identifier <;> rfl
  · rw [getData_modifyData_ne pb P.identifier id _ h]

theorem revLen_parametricPass (P : BakeParams) (c : List Nat) (pb : ProbeBatch)
    (id : BakedDataIdentifier) :
    revLen (parametricPass P c pb) id = revLen pb id := by
  rw [parametricPass_eq]
  unfold revLen
  by_cases h : id = P.identifier
  · subst h
    rw [getData_modifyData_self]
    cases hx : pb.getData P.identifier with
    | none => rfl
    | some d => simpa using setFold_length c _ d.reverbs
  · rw [getData_modifyData_ne pb P.identifier id _ h]

theorem fldLen_parametricPass (P : BakeParams) (c : List Nat) (pb : ProbeBatch)
    (id : BakedDataIdentifier) :
    fldLen (parametricPass P c pb) id = fldLen pb id := by
  rw [parametricPass_eq]
  unfold fldLen
  by_cases h : id = P.identifier
  · subst h
    rw [getData_modifyData_self]
    cases hx : pb.getData P.identifier <;> rfl
  · rw [getData_modifyData_ne pb P.identifier id _ h]

theorem revLen_convolutionPass (P : BakeParams) (c : List Nat) (pb : ProbeBatch)
    (id : BakedDataIdentifier) :
    revLen (convolutionPass P c pb) id = revLen pb id := by
  rw [convolutionPass_eq]
  unfold revLen
  by_cases h : id = P.identifier
  · subst h
    rw [getData_modifyData_self]
    cases hx : pb.getData P.identifier <;> rfl
  · rw [getData_modifyData_ne pb P.identifier id _ h]

theorem fldLen_convolutionPass (P : BakeParams) (c : List Nat) (pb : ProbeBatch)
    (id : BakedDataIdentifier) :
    fldLen (convolutionPass P c pb) id = fldLen pb id := by
  rw [convolutionPass_eq]
  unfold fldLen
  by_cases h : id = P.identifier
  · subst h
    rw [getData_modifyData_self]
    cases hx : pb.getData P.identifier with
    | none => rfl
    | some d => simpa using setFold_length c _ d.fields
  · rw [getData_modifyData_ne pb P.identifier id _ h]

theorem reverbAt_closeBatchStore (P : BakeParams) (c : List Nat) (pb : ProbeBatch) (idx : Nat) :
    (closeBatchStore P c pb).reverbAt P.identifier idx
      = if P.bakeParametric = true ∧ idx ∈ c ∧ idx < revLen pb P.identifier
        then some (P.estimate (simulatedField P idx))
        else pb.reverbAt P.identifier idx := by
  unfold closeBatchStore
  cases hp : P.bakeParametric with
  | false =>
    cases hc : P.bakeConvolution with
    | false => simp
    | true => simp [reverbAt_convolutionPass]
  | true =>
    cases hc : P.bakeConvolution with
    | false =>
      simp only [if_true, if_false, Bool.true_eq, true_and]
      exact reverbAt_parametricPass P c pb idx
    | true =>
      simp only [if_true, Bool.true_eq, true_and]
      rw [reverbAt_convolutionPass]
      exact reverbAt_parametricPass P c pb idx

theorem fieldAt_closeBatchStore (P : BakeParams) (c : List Nat) (pb : ProbeBatch) (idx : Nat) :
    (closeBatchStore P c pb).fieldAt P.identifier idx
      = if P.bakeConvolution = true ∧ idx ∈ c ∧ idx < fldLen pb P.identifier
        then some (storedFieldFor P idx)
        else pb.fieldAt P.identifier idx := by
  unfold closeBatchStore
  cases hc : P.bakeConvolution with
  | false =>
    cases hp : P.bakeParametric with
    | false => simp
    | true => simp [fieldAt_parametricPass]
  | true =>
    cases hp : P.bakeParametric with
    | false =>
      simp only [if_true, if_false, Bool.true_eq, true_and]
      exact fieldAt_convolutionPass P c pb idx
    | true =>
      simp only [if_true, Bool.true_eq, true_and]
      rw [fieldAt_convolutionPass, fldLen_parametricPass, fieldAt_parametricPass]

theorem revLen_closeBatchStore (P : BakeParams) (c : List Nat) (pb : ProbeBatch)
    (id : BakedDataIdentifier) :
    revLen (closeBatchStore P c pb) id = revLen pb id := by
  unfold closeBatchStore
  cases P.bakeParametric <;> cases P.bakeConvolution <;>
    simp [revLen_convolutionPass, revLen_parametricPass]

theorem fldLen_closeBatchStore (P : BakeParams) (c : List Nat) (pb : ProbeBatch)
    (id : BakedDataIdentifier) :
    fldLen (closeBatchStore P c pb) id = fldLen pb id := by
  unfold closeBatchStore
  cases P.bakeParametric <;> cases P.bakeConvolution <;>
    simp [fldLen_convolutionPass, fldLen_parametricPass]

/-! Properties of the batch plan. -/

theorem closePoints_chunk_bound (e : Nat → Bool) (B n : Nat) (hB : 1 ≤ B) :
    ∀ (m i : Nat) (pending : List Nat), pending.length < B →
      ∀ entry ∈ closePoints e B n i m pending,
        entry.2.length ≤ B ∧ (entry.2.length = B ∨ entry.1 = n - 1) := by
  intro m
  induction m with
  | zero => intro i pending _ entry h; simp [closePoints] at h
  | succ m ih =>
    intro i pending hp entry h
    rw [closePoints] at h
    set pending' := if e i then pending ++ [i] else pending with hpend
    have hlen : pending'.length ≤ B := by
      rw [hpend]
      by_cases hei : e i = true <;> simp [hei] <;> omega
    by_cases hc : pending'.length = B ∨ i = n - 1
    · rw [if_pos hc] at h
      rcases List.mem_cons.mp h with h1 | h1
      · subst h1
        exact ⟨hlen, hc⟩
      · exact ih (i + 1) [] (by simpa using hB) entry h1
    · rw [if_neg hc] at h
      push_neg at hc
      exact ih (i + 1) pending' (Nat.lt_of_le_of_ne hlen hc.1) entry h

theorem closePoints_idx_bound (e : Nat → Bool) (B n : Nat) :
    ∀ (m i : Nat) (pending : List Nat),
      ∀ entry ∈ closePoints e B n i m pending, i ≤ entry.1 ∧ entry.1 < i + m := by
  intro m
  induction m with
  | zero => intro i pending entry h; simp [closePoints] at h
  | succ m ih =>
    intro i pending entry h
    rw [closePoints] at h
    by_cases hc : (if e i then pending ++ [i] else pending).length = B ∨ i = n - 1
    · rw [if_pos hc] at h
      rcases List.mem_cons.mp h with h1 | h1
      · subst h1; omega
      · have := ih (i + 1) [] entry h1
        omega
    · rw [if_neg hc] at h
      have := ih (i + 1) _ entry h
      omega

theorem closePoints_chunk_mem (e : Nat → Bool) (B n : Nat) :
    ∀ (m i : Nat) (pending : List Nat), ∀ entry ∈ closePoints e B n i m pending,
      ∀ j ∈ entry.2, j ∈ pending ∨ (e j = true ∧ i ≤ j ∧ j < i + m) := by
  intro m
  induction m with
  | zero => intro i pending entry h; simp [closePoints] at h
  | succ m ih =>
    intro i pending entry h j hj
    rw [closePoints] at h
    set pending' := if e i then pending ++ [i] else pending with hpend
    have hstep : ∀ x, x ∈ pending' → x ∈ pending ∨ (e x = true ∧ i ≤ x ∧ x < i + (m + 1)) := by
      intro x hx
      rw [hpend] at hx
      by_cases hei : e i = true
      · rw [if_pos hei] at hx
        rcases List.mem_append.mp hx with h1 | h1
        · exact Or.inl h1
        · right
          have : x = i := by simpa using h1
          subst this
          exact ⟨hei, Nat.le_refl x, by omega⟩
      · rw [if_neg hei] at hx
        exact Or.inl hx
    by_cases hc : pending'.length = B ∨ i = n - 1
    · rw [if_pos hc] at h
      rcases List.mem_cons.mp h with h1 | h1
      · subst h1
        exact hstep j hj
      · rcases ih (i + 1) [] entry h1 j hj with h2 | h2
        · simp at h2
        · right
          exact ⟨h2.1, by omega, by omega⟩
    · rw [if_neg hc] at h
      rcases ih (i + 1) pending' entry h j hj with h2 | h2
      · rcases hstep j h2 with h3 | h3
        · exact Or.inl h3
        · right
          exact ⟨h3.1, h3.2.1, by omega⟩
      · right
        exact ⟨h2.1, by omega, by omega⟩

theorem closePoints_ne_nil (e : Nat → Bool) (B n : Nat) :
    ∀ (m i : Nat) (pending : List Nat), 1 ≤ m → i + m = n →
      closePoints e B n i m pending ≠ [] := by
  intro m
  induction m with
  | zero => intro i pending h; omega
  | succ m ih =>
    intro i pending _ hn
    rw [closePoints]
    by_cases hc : (if e i then pending ++ [i] else pending).length = B ∨ i = n - 1
    · rw [if_pos hc]
      exact List.cons_ne_nil _ _
    · rw [if_neg hc]
      have hm : 1 ≤ m := by
        by_contra hm0
        have : m = 0 := by omega
        subst this
        exact hc (Or.inr (by omega))
      exact ih (i + 1) _ hm (by omega)

theorem closePoints_last (e : Nat → Bool) (B n : Nat) :
    ∀ (m i : Nat) (pending : List Nat), 1 ≤ m → i + m = n →
      ∃ c, (closePoints e B n i m pending).getLast? = some (n - 1, c) := by
  intro m
  induction m with
  | zero => intro i pending h; omega
  | succ m ih =>
    intro i pending _ hn
    rw [closePoints]
    by_cases hm : m = 0
    · subst hm
      have hi : i = n - 1 := by omega
      subst hi
      rw [if_pos (Or.inr rfl)]
      refine ⟨if e (n - 1) = true then pending ++ [n - 1] else pending, ?_⟩
      simp [closePoints]
    · have hm1 : 1 ≤ m := by omega
      by_cases hc : (if e i then pending ++ [i] else pending).length = B ∨ i = n - 1
      · rw [if_pos hc]
        obtain ⟨c, hcl⟩ := ih (i + 1) [] hm1 (by omega)
        refine ⟨c, ?_⟩
        rw [List.getLast?_cons, hcl]
        rfl
      · rw [if_neg hc]
        exact ih (i + 1) _ hm1 (by omega)

theorem closePoints_fst_pairwise (e : Nat → Bool) (B n : Nat) :
    ∀ (m i : Nat) (pending : List Nat),
      List.Pairwise (fun x y : Nat × List Nat => x.1 < y.1) (closePoints e B n i m pending) := by
  intro m
  induction m with
  | zero => intro i pending; simp [closePoints]
  | succ m ih =>
    intro i pending
    rw [closePoints]
    by_cases hc : (if e i then pending ++ [i] else pending).length = B ∨ i = n - 1
    · rw [if_pos hc]
      refine List.pairwise_cons.mpr ⟨?_, ih (i + 1) []⟩
      intro entry h
      exact (closePoints_idx_bound e B n m (i + 1) [] entry h).1
    · rw [if_neg hc]
      exact ih (i + 1) _

theorem closePoints_coverage (e : Nat → Bool) (B n : Nat) (hB : 1 ≤ B) :
    ∀ (m i : Nat) (pending : List Nat) (j : Nat), pending.length < B → i + m = n → 1 ≤ m →
      (j ∈ pending ∨ (e j = true ∧ i ≤ j ∧ j < i + m)) →
      ∃ entry ∈ closePoints e B n i m pending, j ∈ entry.2 := by
  intro m
  induction m with
  | zero => intro i pending j _ _ h; omega
  | succ m ih =>
    intro i pending j hp hn _ hj
    rw [closePoints]
    set pending' := if e i then pending ++ [i] else pending with hpend
    have hmem : j ∈ pending ∨ (j = i ∧ e i = true) → j ∈ pending' := by
      intro h
      rw [hpend]
      rcases h with h | ⟨h1, h2⟩
      · by_cases hei : e i = true
        · rw [if_pos hei]; exact List.mem_append_left _ h
        · rw [if_neg hei]; exact h
      · subst h1
        rw [if_pos h2]
        exact List.mem_append_right _ (List.mem_singleton.mpr rfl)
    have hlen : pending'.length ≤ B := by
      rw [hpend]
      by_cases hei : e i = true <;> simp [hei] <;> omega
    by_cases hc : pending'.length = B ∨ i = n - 1
    · rw [if_pos hc]
      by_cases hup : j ∈ pending ∨ (j = i ∧ e i = true)
      · refine ⟨(i, pending'), ?_, hmem hup⟩
        exact List.mem_cons_self _ _
      · push_neg at hup
        have hj2 : e j = true ∧ i + 1 ≤ j ∧ j < i + 1 + m := by
          rcases hj with h1 | h1
          · exact absurd h1 hup.1
          · obtain ⟨he1, hle, hlt⟩ := h1
            refine ⟨he1, ?_, by omega⟩
            rcases Nat.lt_or_ge i j with h2 | h2
            · omega
            · have hji : j = i := by omega
              exact absurd (hji ▸ he1) (hup.2 hji)
        have hm : 1 ≤ m := by
          obtain ⟨he1, hle, hlt⟩ := hj2
          omega
        obtain ⟨entry, he, hje⟩ := ih (i + 1) [] j (by simpa using hB) (by omega) hm (Or.inr hj2)
        refine ⟨entry, ?_, hje⟩
        exact List.mem_cons_of_mem _ he
    · rw [if_neg hc]
      push_neg at hc
      have hm : 1 ≤ m := by
        by_contra h0
        exact hc.2 (by omega)
      refine ih (i + 1) pending' j (Nat.lt_of_le_of_ne hlen hc.1) (by omega) hm ?_
      rcases hj with h1 | h1
      · exact Or.inl (hmem (Or.inl h1))
      · rcases Nat.lt_or_ge i j with h2 | h2
        · exact Or.inr ⟨h1.1, by omega, by omega⟩
        · have hji : j = i := by omega
          exact Or.inl (hmem (Or.inr ⟨hji, hji ▸ h1.1⟩))

/-! The bake loop is the replay of its batch plan. -/

theorem bakeLoop_eq_runPlan (P : BakeParams) (n B : Nat) (sig : Nat → Bool) (e : Nat → Bool) :
    ∀ (probes : List Probe) (i : Nat) (pending : List Nat) (b : Nat) (flag : Bool) (pb : ProbeBatch),
      (∀ k p, probes[k]? = some p → e (i + k) = probeEligible P.identifier p) →
      bakeLoop P n B sig probes i pending b flag pb
        = runPlan P n sig (closePoints e B n i probes.length pending) b flag pb := by
  intro probes
  induction probes with
  | nil => intro i pending b flag pb _; rfl
  | cons p rest ih =>
    intro i pending b flag pb he
    have he0 : e i = probeEligible P.identifier p := by simpa using he 0 p (by simp)
    have hrest : ∀ k q, rest[k]? = some q → e (i + 1 + k) = probeEligible P.identifier q := by
      intro k q hk
      have h2 := he (k + 1) q (by simpa using hk)
      rw [show i + (k + 1) = i + 1 + k by omega] at h2
      exact h2
    rw [List.length_cons, closePoints, bakeLoop, he0]
    by_cases hc : (if probeEligible P.identifier p then pending ++ [i] else pending).length = B ∨ i = n - 1
    · rw [if_pos hc, if_pos hc, runPlan]
      by_cases hf : (flag || sig b) = true
      · rw [if_pos hf, if_pos hf]
      · rw [if_neg hf, if_neg hf, ih (i + 1) [] (b + 1) false _ hrest]
    · rw [if_neg hc, if_neg hc]
      exact ih (i + 1) _ b flag pb hrest

theorem bake_eq_runPlan (P : BakeParams) (g : GlobalFlags) (sig : Nat → Bool) (pb : ProbeBatch) :
    ReflectionBaker.bake P g sig pb =
      { probeBatch := (runPlan P pb.probes.length sig (bakePlan P pb) 0 g.sCancel (bakePrep P pb)).1
        events := (runPlan P pb.probes.length sig (bakePlan P pb) 0 g.sCancel (bakePrep P pb)).2.1
        sCancelFinal := (runPlan P pb.probes.length sig (bakePlan P pb) 0 g.sCancel (bakePrep P pb)).2.2
        sBakeInProgressFinal := false } := by
  have he : ∀ k q, pb.probes[k]? = some q →
      eligAt P.identifier pb.probes (0 + k) = probeEligible P.identifier q := by
    intro k q hk
    unfold eligAt
    rw [Nat.zero_add, hk]
  unfold ReflectionBaker.bake bakePlan bakePrep
  dsimp only
  rw [bakeLoop_eq_runPlan P pb.probes.length
    (effectiveBatchSize P.sceneType P.identifier.variation P.bakeBatchSize) sig
    (eligAt P.identifier pb.probes) pb.probes 0 [] 0 g.sCancel _ he]

/-! Projections of `runPlan`. -/

theorem filterMap_const_none {α β : Type} (l : List α) :
    l.filterMap (fun _ => (none : Option β)) = [] := by
  induction l with
  | nil => rfl
  | cons x rest ih => simpa using ih

theorem execEntries_mem (sig : Nat → Bool) :
    ∀ (plan : List (Nat × List Nat)) (b : Nat) (flag : Bool),
      ∀ entry ∈ execEntries sig plan b flag, entry ∈ plan := by
  intro plan
  induction plan with
  | nil => intro b flag entry h; simp [execEntries] at h
  | cons x rest ih =>
    intro b flag entry h
    rw [execEntries] at h
    by_cases hf : (flag || sig b) = true
    · rw [if_pos hf] at h
      rcases List.mem_singleton.mp h with h1
      subst h1
      exact List.mem_cons_self _ _
    · rw [if_neg hf] at h
      rcases List.mem_cons.mp h with h1 | h1
      · subst h1; exact List.mem_cons_self _ _
      · exact List.mem_cons_of_mem _ (ih (b + 1) false entry h1)

theorem execEntries_all_false (sig : Nat → Bool) (hs : ∀ b, sig b = false) :
    ∀ (plan : List (Nat × List Nat)) (b : Nat), execEntries sig plan b false = plan := by
  intro plan
  induction plan with
  | nil => intro b; rfl
  | cons x rest ih =>
    intro b
    rw [execEntries]
    rw [if_neg (by simp [hs b])]
    rw [ih (b + 1)]

theorem runPlan_fst (P : BakeParams) (n : Nat) (sig : Nat → Bool) :
    ∀ (plan : List (Nat × List Nat)) (b : Nat) (flag : Bool) (pb : ProbeBatch),
      (runPlan P n sig plan b flag pb).1
        = (execEntries sig plan b flag).foldl (fun acc entry => closeBatchStore P entry.2 acc) pb := by
  intro plan
  induction plan with
  | nil => intro b flag pb; rfl
  | cons entry rest ih =>
    intro b flag pb
    rw [runPlan, execEntries]
    by_cases hf : (flag || sig b) = true
    · rw [if_pos hf, if_pos hf]
      rfl
    · rw [if_neg hf, if_neg hf, List.foldl_cons, ih]

theorem filterMap_simValidCount_closeBatchEvents (P : BakeParams) (n i : Nat) (c : List Nat) :
    (closeBatchEvents P n i c).filterMap simValidCount = [c.length] := by
  unfold closeBatchEvents
  by_cases hc : P.bakeConvolution = true <;> by_cases hcb : P.hasCallback = true <;>
    simp [hc, hcb, simValidCount, List.filterMap_append, List.filterMap_map, wavEventFor,
      Function.comp, filterMap_const_none]

theorem filterMap_simTriple_closeBatchEvents (P : BakeParams) (n i : Nat) (c : List Nat) :
    (closeBatchEvents P n i c).filterMap simTriple
      = [(c.length, endpointCounts P.sceneType P.identifier.variation c.length)] := by
  unfold closeBatchEvents
  by_cases hc : P.bakeConvolution = true <;> by_cases hcb : P.hasCallback = true <;>
    simp [hc, hcb, simTriple, List.filterMap_append, List.filterMap_map, wavEventFor,
      Function.comp, filterMap_const_none]

theorem filterMap_progressValue_closeBatchEvents (P : BakeParams) (n i : Nat) (c : List Nat) :
    (closeBatchEvents P n i c).filterMap progressValue
      = if P.hasCallback = true then [((i : ℚ) + 1) / (n : ℚ)] else [] := by
  unfold closeBatchEvents
  by_cases hc : P.bakeConvolution = true <;> by_cases hcb : P.hasCallback = true <;>
    simp [hc, hcb, progressValue, List.filterMap_append, List.filterMap_map, wavEventFor,
      Function.comp, filterMap_const_none]

theorem runPlan_simValid (P : BakeParams) (n : Nat) (sig : Nat → Bool) :
    ∀ (plan : List (Nat × List Nat)) (b : Nat) (flag : Bool) (pb : ProbeBatch),
      ((runPlan P n sig plan b flag pb).2.1).filterMap simValidCount
        = (execEntries sig plan b flag).map (fun entry => entry.2.length) := by
  intro plan
  induction plan with
  | nil => intro b flag pb; rfl
  | cons entry rest ih =>
    intro b flag pb
    rw [runPlan, execEntries]
    by_cases hf : (flag || sig b) = true
    · rw [if_pos hf, if_pos hf]
      simp [List.filterMap_append, filterMap_simValidCount_closeBatchEvents, simValidCount]
    · rw [if_neg hf, if_neg hf]
      simp [List.filterMap_append, filterMap_simValidCount_closeBatchEvents, simValidCount, ih]

theorem runPlan_simTriple (P : BakeParams) (n : Nat) (sig : Nat → Bool) :
    ∀ (plan : List (Nat × List Nat)) (b : Nat) (flag : Bool) (pb : ProbeBatch),
      ((runPlan P n sig plan b flag pb).2.1).filterMap simTriple
        = (execEntries sig plan b flag).map
            (fun entry => (entry.2.length, endpointCounts P.sceneType P.identifier.variation entry.2.length)) := by
  intro plan
  induction plan with
  | nil => intro b flag pb; rfl
  | cons entry rest ih =>
    intro b flag pb
    rw [runPlan, execEntries]
    by_cases hf : (flag || sig b) = true
    · rw [if_pos hf, if_pos hf]
      simp [List.filterMap_append, filterMap_simTriple_closeBatchEvents, simTriple]
    · rw [if_neg hf, if_neg hf]
      simp [List.filterMap_append, filterMap_simTriple_closeBatchEvents, simTriple, ih]

theorem runPlan_progress (P : BakeParams) (n : Nat) (sig : Nat → Bool) :
    ∀ (plan : List (Nat × List Nat)) (b : Nat) (flag : Bool) (pb : ProbeBatch),
      ((runPlan P n sig plan b flag pb).2.1).filterMap progressValue
        = if P.hasCallback = true
          then (execEntries sig plan b flag).map (fun entry => ((entry.1 : ℚ) + 1) / (n : ℚ))
          else [] := by
  intro plan
  induction plan with
  | nil => intro b flag pb; by_cases hcb : P.hasCallback = true <;> simp [hcb, runPlan, execEntries]
  | cons entry rest ih =>
    intro b flag pb
    rw [runPlan, execEntries]
    by_cases hf : (flag || sig b) = true
    · rw [if_pos hf, if_pos hf]
      by_cases hcb : P.hasCallback = true <;>
        simp [hcb, List.filterMap_append, filterMap_progressValue_closeBatchEvents, progressValue]
    · rw [if_neg hf, if_neg hf]
      by_cases hcb : P.hasCallback = true <;>
        simp [hcb, List.filterMap_append, filterMap_progressValue_closeBatchEvents, progressValue, ih]

/-! Store effects across a list of executed batches. -/

theorem storeFold_revLen (P : BakeParams) (id : BakedDataIdentifier) :
    ∀ (entries : List (Nat × List Nat)) (pb : ProbeBatch),
      revLen (entries.foldl (fun acc entry => closeBatchStore P entry.2 acc) pb) id = revLen pb id := by
  intro entries
  induction entries with
  | nil => intro pb; rfl
  | cons entry rest ih =>
    intro pb
    rw [List.foldl_cons, ih, revLen_closeBatchStore]

theorem storeFold_fldLen (P : BakeParams) (id : BakedDataIdentifier) :
    ∀ (entries : List (Nat × List Nat)) (pb : ProbeBatch),
      fldLen (entries.foldl (fun acc entry => closeBatchStore P entry.2 acc) pb) id = fldLen pb id := by
  intro entries
  induction entries with
  | nil => intro pb; rfl
  | cons entry rest ih =>
    intro pb
    rw [List.foldl_cons, ih, fldLen_closeBatchStore]

theorem storeFold_reverbAt_untouched (P : BakeParams) (idx : Nat) :
    ∀ (entries : List (Nat × List Nat)) (pb : ProbeBatch), (∀ entry ∈ entries, idx ∉ entry.2) →
      (entries.foldl (fun acc entry => closeBatchStore P entry.2 acc) pb).reverbAt P.identifier idx
        = pb.reverbAt P.identifier idx := by
  intro entries
  induction entries with
  | nil => intro pb _; rfl
  | cons entry rest ih =>
    intro pb h
    rw [List.foldl_cons, ih _ (fun x hx => h x (List.mem_cons_of_mem _ hx)),
      reverbAt_closeBatchStore]
    rw [if_neg (fun hc => h entry (List.mem_cons_self _ _) hc.2.1)]

theorem storeFold_fieldAt_untouched (P : BakeParams) (idx : Nat) :
    ∀ (entries : List (Nat × List Nat)) (pb : ProbeBatch), (∀ entry ∈ entries, idx ∉ entry.2) →
      (entries.foldl (fun acc entry => closeBatchStore P entry.2 acc) pb).fieldAt P.identifier idx
        = pb.fieldAt P.identifier idx := by
  intro entries
  induction entries with
  | nil => intro pb _; rfl
  | cons entry rest ih =>
    intro pb h
    rw [List.foldl_cons, ih _ (fun x hx => h x (List.mem_cons_of_mem _ hx)),
      fieldAt_closeBatchStore]
    rw [if_neg (fun hc => h entry (List.mem_cons_self _ _) hc.2.1)]

theorem storeFold_reverbAt_stable (P : BakeParams) (idx : Nat)
    (hv : P.bakeParametric = true) :
    ∀ (entries : List (Nat × List Nat)) (pb : ProbeBatch),
      pb.reverbAt P.identifier idx = some (P.estimate (simulatedField P idx)) →
      (entries.foldl (fun acc entry => closeBatchStore P entry.2 acc) pb).reverbAt P.identifier idx
        = some (P.estimate (simulatedField P idx)) := by
  intro entries
  induction entries with
  | nil => intro pb h; exact h
  | cons entry rest ih =>
    intro pb h
    rw [List.foldl_cons]
    refine ih _ ?_
    rw [reverbAt_closeBatchStore]
    by_cases hc : P.bakeParametric = true ∧ idx ∈ entry.2 ∧ idx < revLen pb P.identifier
    · rw [if_pos hc]
    · rw [if_neg hc]; exact h

theorem storeFold_fieldAt_stable (P : BakeParams) (idx : Nat)
    (hv : P.bakeConvolution = true) :
    ∀ (entries : List (Nat × List Nat)) (pb : ProbeBatch),
      pb.fieldAt P.identifier idx = some (storedFieldFor P idx) →
      (entries.foldl (fun acc entry => closeBatchStore P entry.2 acc) pb).fieldAt P.identifier idx
        = some (storedFieldFor P idx) := by
  intro entries
  induction entries with
  | nil => intro pb h; exact h
  | cons entry rest ih =>
    intro pb h
    rw [List.foldl_cons]
    refine ih _ ?_
    rw [fieldAt_closeBatchStore]
    by_cases hc : P.bakeConvolution = true ∧ idx ∈ entry.2 ∧ idx < fldLen pb P.identifier
    · rw [if_pos hc]
    · rw [if_neg hc]; exact h

theorem storeFold_reverbAt_written (P : BakeParams) (idx : Nat)
    (hv : P.bakeParametric = true) :
    ∀ (entries : List (Nat × List Nat)) (pb : ProbeBatch),
      (∃ entry ∈ entries, idx ∈ entry.2) → idx < revLen pb P.identifier →
      (entries.foldl (fun acc entry => closeBatchStore P entry.2 acc) pb).reverbAt P.identifier idx
        = some (P.estimate (simulatedField P idx)) := by
  intro entries
  induction entries with
  | nil => intro pb h _; simp at h
  | cons entry rest ih =>
    intro pb h hlen
    rw [List.foldl_cons]
    by_cases hm : idx ∈ entry.2
    · refine storeFold_reverbAt_stable P idx hv rest _ ?_
      rw [reverbAt_closeBatchStore, if_pos ⟨hv, hm, hlen⟩]
    · obtain ⟨x, hx, hjx⟩ := h
      rcases List.mem_cons.mp hx with h1 | h1
      · subst h1; exact absurd hjx hm
      · refine ih _ ⟨x, h1, hjx⟩ ?_
        rw [revLen_closeBatchStore]
        exact hlen

theorem storeFold_fieldAt_written (P : BakeParams) (idx : Nat)
    (hv : P.bakeConvolution = true) :
    ∀ (entries : List (Nat × List Nat)) (pb : ProbeBatch),
      (∃ entry ∈ entries, idx ∈ entry.2) → idx < fldLen pb P.identifier →
      (entries.foldl (fun acc entry => closeBatchStore P entry.2 acc) pb).fieldAt P.identifier idx
        = some (storedFieldFor P idx) := by
  intro entries
  induction entries with
  | nil => intro pb h _; simp at h
  | cons entry rest ih =>
    intro pb h hlen
    rw [List.foldl_cons]
    by_cases hm : idx ∈ entry.2
    · refine storeFold_fieldAt_stable P idx hv rest _ ?_
      rw [fieldAt_closeBatchStore, if_pos ⟨hv, hm, hlen⟩]
    · obtain ⟨x, hx, hjx⟩ := h
      rcases List.mem_cons.mp hx with h1 | h1
      · subst h1; exact absurd hjx hm
      · refine ih _ ⟨x, h1, hjx⟩ ?_
        rw [fldLen_closeBatchStore]
        exact hlen

/-! The capability flags and creation-time attributes survive the loop. -/

theorem closeBatchStore_meta (P : BakeParams) (c : List Nat) (pb : ProbeBatch)
    (id : BakedDataIdentifier) :
    ((closeBatchStore P c pb).getData id).map
        (fun d => (d.identifier, d.numProbes, d.hasConvolution, d.hasParametric))
      = (pb.getData id).map
        (fun d => (d.identifier, d.numProbes, d.hasConvolution, d.hasParametric)) := by
  unfold closeBatchStore
  by_cases hid : id = P.identifier
  · subst hid
    by_cases hp : P.bakeParametric = true <;> by_cases hc : P.bakeConvolution = true <;>
      simp [hp, hc, parametricPass_eq, convolutionPass_eq, getData_modifyData_self,
        Option.map_map, Function.comp] <;>
      cases pb.getData P.identifier <;> rfl
  · by_cases hp : P.bakeParametric = true <;> by_cases hc : P.bakeConvolution = true <;>
      simp [hp, hc, parametricPass_eq, convolutionPass_eq,
        getData_modifyData_ne _ P.identifier id _ hid]

theorem storeFold_meta (P : BakeParams) (id : BakedDataIdentifier) :
    ∀ (entries : List (Nat × List Nat)) (pb : ProbeBatch),
      ((entries.foldl (fun acc entry => closeBatchStore P entry.2 acc) pb).getData id).map
          (fun d => (d.identifier, d.numProbes, d.hasConvolution, d.hasParametric))
        = (pb.getData id).map
          (fun d => (d.identifier, d.numProbes, d.hasConvolution, d.hasParametric)) := by
  intro entries
  induction entries with
  | nil => intro pb; rfl
  | cons entry rest ih =>
    intro pb
    rw [List.foldl_cons, ih, closeBatchStore_meta]

/-! The pre-loop preparation step. -/

theorem bakePrep_getData (P : BakeParams) (pb : ProbeBatch) :
    (bakePrep P pb).getData P.identifier
      = some (match pb.getData P.identifier with
          | some d => (d.setHasConvolution P.bakeConvolution).setHasParametric P.bakeParametric
          | none =>
            ((BakedReflectionsData.init P.identifier pb.probes.length P.bakeConvolution
                P.bakeParametric).setHasConvolution P.bakeConvolution).setHasParametric
              P.bakeParametric) := by
  unfold bakePrep
  by_cases h : pb.hasData P.identifier = true
  · rw [if_pos h, getData_modifyData_self]
    obtain ⟨d, hd⟩ := Option.isSome_iff_exists.mp h
    rw [hd]
    rfl
  · have hnone : pb.getData P.identifier = none := by
      unfold ProbeBatch.hasData at h
      exact Option.not_isSome_iff_eq_none.mp (by simpa using h)
    rw [if_neg h, getData_modifyData_self, getData_addData_of_none _ _ _ hnone, hnone]
    rfl

theorem bakePrep_probes (P : BakeParams) (pb : ProbeBatch) :
    (bakePrep P pb).probes = pb.probes := by
  unfold bakePrep
  by_cases h : pb.hasData P.identifier = true
  · rw [if_pos h]
    rfl
  · rw [if_neg h]
    rfl

theorem revLen_bakePrep (P : BakeParams) (pb : ProbeBatch)
    (hsz : pb.dataSizedB P.identifier = true) :
    revLen (bakePrep P pb) P.identifier = pb.probes.length := by
  unfold revLen
  rw [bakePrep_getData]
  unfold ProbeBatch.dataSizedB at hsz
  cases h : pb.getData P.identifier with
  | none => simp [BakedReflectionsData.init, BakedReflectionsData.setHasConvolution,
      BakedReflectionsData.setHasParametric]
  | some d =>
    rw [h] at hsz
    simp only [Bool.and_eq_true, decide_eq_true_eq] at hsz
    simpa [BakedReflectionsData.setHasConvolution, BakedReflectionsData.setHasParametric]
      using hsz.1

theorem fldLen_bakePrep (P : BakeParams) (pb : ProbeBatch)
    (hsz : pb.dataSizedB P.identifier = true) :
    fldLen (bakePrep P pb) P.identifier = pb.probes.length := by
  unfold fldLen
  rw [bakePrep_getData]
  unfold ProbeBatch.dataSizedB at hsz
  cases h : pb.getData P.identifier with
  | none => simp [BakedReflectionsData.init, BakedReflectionsData.setHasConvolution,
      BakedReflectionsData.setHasParametric]
  | some d =>
    rw [h] at hsz
    simp only [Bool.and_eq_true, decide_eq_true_eq] at hsz
    simpa [BakedReflectionsData.setHasConvolution, BakedReflectionsData.setHasParametric]
      using hsz.2

theorem reverbAt_bakePrep (P : BakeParams) (pb : ProbeBatch) (idx : Nat) :
    (bakePrep P pb).reverbAt P.identifier idx = pb.reverbAt P.identifier idx := by
  unfold ProbeBatch.reverbAt
  rw [bakePrep_getData]
  cases h : pb.getData P.identifier with
  | none =>
    simp [BakedReflectionsData.init, BakedReflectionsData.setHasConvolution,
      BakedReflectionsData.setHasParametric, List.getD_eq_getElem?_getD]
  | some d => rfl

theorem fieldAt_bakePrep (P : BakeParams) (pb : ProbeBatch) (idx : Nat) :
    (bakePrep P pb).fieldAt P.identifier idx = pb.fieldAt P.identifier idx := by
  unfold ProbeBatch.fieldAt
  rw [bakePrep_getData]
  cases h : pb.getData P.identifier with
  | none =>
    simp [BakedReflectionsData.init, BakedReflectionsData.setHasConvolution,
      BakedReflectionsData.setHasParametric, List.getD_eq_getElem?_getD]
  | some d => rfl

theorem convFlag_bakePrep (P : BakeParams) (pb : ProbeBatch) :
    (bakePrep P pb).convFlag P.identifier = (pb.convFlag P.identifier || P.bakeConvolution) := by
  unfold ProbeBatch.convFlag
  rw [bakePrep_getData]
  cases h : pb.getData P.identifier with
  | none =>
    simp [BakedReflectionsData.init, BakedReflectionsData.setHasConvolution,
      BakedReflectionsData.setHasParametric]
  | some d => rfl

theorem parFlag_bakePrep (P : BakeParams) (pb : ProbeBatch) :
    (bakePrep P pb).parFlag P.identifier = (pb.parFlag P.identifier || P.bakeParametric) := by
  unfold ProbeBatch.parFlag
  rw [bakePrep_getData]
  cases h : pb.getData P.identifier with
  | none =>
    simp [BakedReflectionsData.init, BakedReflectionsData.setHasConvolution,
      BakedReflectionsData.setHasParametric]
  | some d => rfl

/-! Cancellation shape of `runPlan`. -/

theorem execEntries_cancel (sig : Nat → Bool) :
    ∀ (plan : List (Nat × List Nat)) (b k : Nat),
      (∀ j, j < k → sig (b + j) = false) → sig (b + k) = true → k < plan.length →
      execEntries sig plan b false = plan.take (k + 1) := by
  intro plan
  induction plan with
  | nil => intro b k _ _ hk; simp at hk
  | cons entry rest ih =>
    intro b k h1 h2 hk
    rw [execEntries]
    cases k with
    | zero =>
      rw [if_pos (by simpa using h2)]
      rfl
    | succ k =>
      have hb : sig b = false := by simpa using h1 0 (Nat.succ_pos k)
      rw [if_neg (by simp [hb])]
      rw [List.take_succ_cons]
      congr 1
      refine ih (b + 1) k ?_ ?_ (by simpa using hk)
      · intro j hj
        have := h1 (j + 1) (by omega)
        rw [show b + (j + 1) = b + 1 + j by omega] at this
        exact this
      · have := h2
        rw [show b + (k + 1) = b + 1 + k by omega] at this
        exact this

theorem runPlan_cancel_shape (P : BakeParams) (n : Nat) (sig : Nat → Bool) :
    ∀ (plan : List (Nat × List Nat)) (b k : Nat) (pb : ProbeBatch),
      (∀ j, j < k → sig (b + j) = false) → sig (b + k) = true → k < plan.length →
      (runPlan P n sig plan b false pb).2.1.getLast? = some (BakeEvent.cancelCheck true)
        ∧ (runPlan P n sig plan b false pb).2.2 = false := by
  intro plan
  induction plan with
  | nil => intro b k pb _ _ hk; simp at hk
  | cons entry rest ih =>
    intro b k pb h1 h2 hk
    rw [runPlan]
    cases k with
    | zero =>
      rw [if_pos (by simpa using h2)]
      exact ⟨List.getLast?_concat _, rfl⟩
    | succ k =>
      have hb : sig b = false := by simpa using h1 0 (Nat.succ_pos k)
      rw [if_neg (by simp [hb])]
      have hrec := ih (b + 1) k (closeBatchStore P entry.2 pb)
        (by
          intro j hj
          have := h1 (j + 1) (by omega)
          rw [show b + (j + 1) = b + 1 + j by omega] at this
          exact this)
        (by
          have := h2
          rw [show b + (k + 1) = b + 1 + k by omega] at this
          exact this)
        (by simpa using hk)
      refine ⟨?_, hrec.2⟩
      have hne : (runPlan P n sig rest (b + 1) false (closeBatchStore P entry.2 pb)).2.1 ≠ [] := by
        intro hnil
        rw [hnil] at hrec
        simp at hrec
      simp only [List.getLast?_append]
      rw [hrec.1]
      rfl

/-! Full-run shape of `runPlan`. -/

theorem runPlan_full_append (P : BakeParams) (n : Nat) (sig : Nat → Bool)
    (hs : ∀ b, sig b = false) :
    ∀ (pre : List (Nat × List Nat)) (lastE : Nat × List Nat) (b : Nat) (pb : ProbeBatch),
      ∃ evpre, (runPlan P n sig (pre ++ [lastE]) b false pb).2.1
        = evpre ++ closeBatchEvents P n lastE.1 lastE.2 ++ [BakeEvent.cancelCheck false] := by
  intro pre
  induction pre with
  | nil =>
    intro lastE b pb
    refine ⟨[], ?_⟩
    rw [List.nil_append, runPlan, if_neg (by simp [hs b])]
    simp [runPlan]
  | cons x pre ih =>
    intro lastE b pb
    obtain ⟨evpre, hev⟩ := ih lastE (b + 1) (closeBatchStore P x.2 pb)
    refine ⟨closeBatchEvents P n x.1 x.2 ++ [BakeEvent.cancelCheck false] ++ evpre, ?_⟩
    rw [List.cons_append, runPlan, if_neg (by simp [hs b])]
    dsimp only
    rw [hev]
    simp [List.append_assoc]

/-! Plan shape with every probe eligible and effective batch size one. -/

theorem closePoints_all_B1 (e : Nat → Bool) (n : Nat) :
    ∀ (m i : Nat), (∀ j, i ≤ j → j < i + m → e j = true) →
      closePoints e 1 n i m [] = (List.range' i m).map (fun j => (j, [j])) := by
  intro m
  induction m with
  | zero => intro i _; rfl
  | succ m ih =>
    intro i he
    rw [closePoints]
    have hei : e i = true := he i (Nat.le_refl i) (by omega)
    rw [if_pos hei]
    rw [if_pos (Or.inl (by simp))]
    rw [List.range', List.map_cons]
    congr 1
    exact ih (i + 1) (fun j h1 h2 => he j (by omega) (by omega))

/-! Plan tail when the trailing probes are all ineligible. -/

theorem closePoints_last_empty (e : Nat → Bool) (B n : Nat) (hB : 1 ≤ B) :
    ∀ (m i : Nat) (pending : List Nat), pending.length < B → i + m = n → 1 ≤ m →
      e (n - 1) = false →
      (pending.length + (List.range' i m).countP e) % B = 0 →
      (closePoints e B n i m pending).getLast? = some (n - 1, []) := by
  intro m
  induction m with
  | zero => intro i pending _ _ h; omega
  | succ m ih =>
    intro i pending hp hn _ hlast hmod
    by_cases hm : m = 0
    · subst hm
      have hi : i = n - 1 := by omega
      have hei : e i = false := hi ▸ hlast
      have hcount : (List.range' i 1).countP e = 0 := by
        simp [List.countP_cons, hei]
      rw [hcount, Nat.add_zero] at hmod
      have hpe : pending = [] := by
        have h0 : pending.length = 0 := by
          rw [Nat.mod_eq_of_lt hp] at hmod
          exact hmod
        exact List.length_eq_zero.mp h0
      subst hpe
      rw [closePoints]
      rw [if_pos (Or.inr hi)]
      rw [show (if e i = true then ([] : List Nat) ++ [i] else []) = [] by simp [hei]]
      subst hi
      simp [closePoints]
    · have hm1 : 1 ≤ m := by omega
      have hcount : (List.range' i (m + 1)).countP e
          = (List.range' (i + 1) m).countP e + (if e i = true then 1 else 0) := by
        rw [List.range', List.countP_cons]
      rw [closePoints]
      set pending' := if e i = true then pending ++ [i] else pending with hpend
      have hplen : pending'.length = pending.length + (if e i = true then 1 else 0) := by
        rw [hpend]
        by_cases hei : e i = true <;> simp [hei]
      have hni : i ≠ n - 1 := by omega
      by_cases hc : pending'.length = B ∨ i = n - 1
      · rw [if_pos hc]
        have hfull : pending'.length = B := by
          rcases hc with h | h
          · exact h
          · exact absurd h hni
        have hmod2 : (([] : List Nat).length + (List.range' (i + 1) m).countP e) % B = 0 := by
          have : pending.length + (List.range' i (m + 1)).countP e
              = (List.range' (i + 1) m).countP e + B := by
            rw [hcount]
            omega
          rw [this] at hmod
          simpa using hmod
        have hrec := ih (i + 1) [] (by simpa using hB) (by omega) hm1 hlast hmod2
        rw [List.getLast?_cons, hrec]
        rfl
      · rw [if_neg hc]
        push_neg at hc
        have hmod2 : (pending'.length + (List.range' (i + 1) m).countP e) % B = 0 := by
          rw [hplen]
          rw [hcount] at hmod
          rw [show pending.length + (if e i = true then 1 else 0)
              + (List.range' (i + 1) m).countP e
            = pending.length + ((List.range' (i + 1) m).countP e
              + (if e i = true then 1 else 0)) by omega]
          exact hmod
        refine ih (i + 1) pending' ?_ (by omega) hm1 hlast hmod2
        have : pending'.length ≤ B := by
          rw [hplen]
          by_cases hei : e i = true <;> simp [hei] <;> omega
        exact Nat.lt_of_le_of_ne this hc.1

/-! Bake-level store facts. -/

theorem execEntries_sublist (sig : Nat → Bool) :
    ∀ (plan : List (Nat × List Nat)) (b : Nat) (flag : Bool),
      (execEntries sig plan b flag).Sublist plan := by
  intro plan
  induction plan with
  | nil => intro b flag; exact List.Sublist.refl _
  | cons entry rest ih =>
    intro b flag
    rw [execEntries]
    by_cases hf : (flag || sig b) = true
    · rw [if_pos hf]
      exact List.Sublist.cons₂ entry (List.nil_sublist rest)
    · rw [if_neg hf]
      exact List.Sublist.cons₂ entry (ih (b + 1) false)

theorem bake_probeBatch_eq (P : BakeParams) (g : GlobalFlags) (sig : Nat → Bool) (pb : ProbeBatch) :
    (ReflectionBaker.bake P g sig pb).probeBatch
      = (executedBatches P g sig pb).foldl (fun acc entry => closeBatchStore P entry.2 acc)
          (bakePrep P pb) := by
  rw [bake_eq_runPlan]
  exact runPlan_fst P pb.probes.length sig (bakePlan P pb) 0 g.sCancel (bakePrep P pb)

theorem bake_events_simValid (P : BakeParams) (g : GlobalFlags) (sig : Nat → Bool) (pb : ProbeBatch) :
    (ReflectionBaker.bake P g sig pb).events.filterMap simValidCount
      = (executedBatches P g sig pb).map (fun entry => entry.2.length) := by
  rw [bake_eq_runPlan]
  exact runPlan_simValid P pb.probes.length sig (bakePlan P pb) 0 g.sCancel (bakePrep P pb)

theorem bake_events_simTriple (P : BakeParams) (g : GlobalFlags) (sig : Nat → Bool) (pb : ProbeBatch) :
    (ReflectionBaker.bake P g sig pb).events.filterMap simTriple
      = (executedBatches P g sig pb).map
          (fun entry => (entry.2.length,
            endpointCounts P.sceneType P.identifier.variation entry.2.length)) := by
  rw [bake_eq_runPlan]
  exact runPlan_simTriple P pb.probes.length sig (bakePlan P pb) 0 g.sCancel (bakePrep P pb)

theorem bake_events_progress (P : BakeParams) (g : GlobalFlags) (sig : Nat → Bool) (pb : ProbeBatch) :
    (ReflectionBaker.bake P g sig pb).events.filterMap progressValue
      = if P.hasCallback = true
        then (executedBatches P g sig pb).map
          (fun entry => ((entry.1 : ℚ) + 1) / (pb.probes.length : ℚ))
        else [] := by
  rw [bake_eq_runPlan]
  exact runPlan_progress P pb.probes.length sig (bakePlan P pb) 0 g.sCancel (bakePrep P pb)

theorem bakePlan_chunk_elig (P : BakeParams) (pb : ProbeBatch) :
    ∀ entry ∈ bakePlan P pb, ∀ j ∈ entry.2,
      eligAt P.identifier pb.probes j = true ∧ j < pb.probes.length := by
  intro entry he j hj
  have := closePoints_chunk_mem (eligAt P.identifier pb.probes)
    (effectiveBatchSize P.sceneType P.identifier.variation P.bakeBatchSize)
    pb.probes.length pb.probes.length 0 [] entry he j hj
  rcases this with h | h
  · simp at h
  · exact ⟨h.1, by omega⟩

theorem bake_reverbAt_untouched (P : BakeParams) (g : GlobalFlags) (sig : Nat → Bool)
    (pb : ProbeBatch) (idx : Nat)
    (hinelig : eligAt P.identifier pb.probes idx = false) :
    (ReflectionBaker.bake P g sig pb).probeBatch.reverbAt P.identifier idx
      = pb.reverbAt P.identifier idx := by
  rw [bake_probeBatch_eq]
  rw [storeFold_reverbAt_untouched P idx _ _ ?hout]
  · exact reverbAt_bakePrep P pb idx
  · intro entry he hj
    have hsub := execEntries_sublist sig (bakePlan P pb) 0 g.sCancel
    have he2 : entry ∈ bakePlan P pb := hsub.mem he
    have := (bakePlan_chunk_elig P pb entry he2 idx hj).1
    rw [hinelig] at this
    exact Bool.false_ne_true this

theorem bake_fieldAt_untouched (P : BakeParams) (g : GlobalFlags) (sig : Nat → Bool)
    (pb : ProbeBatch) (idx : Nat)
    (hinelig : eligAt P.identifier pb.probes idx = false) :
    (ReflectionBaker.bake P g sig pb).probeBatch.fieldAt P.identifier idx
      = pb.fieldAt P.identifier idx := by
  rw [bake_probeBatch_eq]
  rw [storeFold_fieldAt_untouched P idx _ _ ?hout]
  · exact fieldAt_bakePrep P pb idx
  · intro entry he hj
    have hsub := execEntries_sublist sig (bakePlan P pb) 0 g.sCancel
    have he2 : entry ∈ bakePlan P pb := hsub.mem he
    have := (bakePlan_chunk_elig P pb entry he2 idx hj).1
    rw [hinelig] at this
    exact Bool.false_ne_true this

theorem bake_reverbAt_written (P : BakeParams) (g : GlobalFlags) (sig : Nat → Bool)
    (pb : ProbeBatch) (idx : Nat)
    (hs : ∀ b, sig b = false) (hg : g.sCancel = false)
    (hB : 1 ≤ effectiveBatchSize P.sceneType P.identifier.variation P.bakeBatchSize)
    (hsz : pb.dataSizedB P.identifier = true)
    (helig : eligAt P.identifier pb.probes idx = true)
    (hidx : idx < pb.probes.length)
    (hpar : P.bakeParametric = true) :
    (ReflectionBaker.bake P g sig pb).probeBatch.reverbAt P.identifier idx
      = some (P.estimate (simulatedField P idx)) := by
  rw [bake_probeBatch_eq]
  have hexec : executedBatches P g sig pb = bakePlan P pb := by
    unfold executedBatches
    rw [hg]
    exact execEntries_all_false sig hs (bakePlan P pb) 0
  rw [hexec]
  refine storeFold_reverbAt_written P idx hpar _ _ ?_ ?_
  · exact closePoints_coverage _ _ _ hB pb.probes.length 0 [] idx (by simpa using hB)
      (by omega) (by omega) (Or.inr ⟨helig, by omega, by omega⟩)
  · rw [revLen_bakePrep P pb hsz]
    exact hidx

theorem bake_fieldAt_written (P : BakeParams) (g : GlobalFlags) (sig : Nat → Bool)
    (pb : ProbeBatch) (idx : Nat)
    (hs : ∀ b, sig b = false) (hg : g.sCancel = false)
    (hB : 1 ≤ effectiveBatchSize P.sceneType P.identifier.variation P.bakeBatchSize)
    (hsz : pb.dataSizedB P.identifier = true)
    (helig : eligAt P.identifier pb.probes idx = true)
    (hidx : idx < pb.probes.length)
    (hconv : P.bakeConvolution = true) :
    (ReflectionBaker.bake P g sig pb).probeBatch.fieldAt P.identifier idx
      = some (storedFieldFor P idx) := by
  rw [bake_probeBatch_eq]
  have hexec : executedBatches P g sig pb = bakePlan P pb := by
    unfold executedBatches
    rw [hg]
    exact execEntries_all_false sig hs (bakePlan P pb) 0
  rw [hexec]
  refine storeFold_fieldAt_written P idx hconv _ _ ?_ ?_
  · exact closePoints_coverage _ _ _ hB pb.probes.length 0 [] idx (by simpa using hB)
      (by omega) (by omega) (Or.inr ⟨helig, by omega, by omega⟩)
  · rw [fldLen_bakePrep P pb hsz]
    exact hidx

theorem meta_of_getData {pb pb' : ProbeBatch} {id : BakedDataIdentifier}
    (h : ((pb'.getData id).map
        (fun d => (d.identifier, d.numProbes, d.hasConvolution, d.hasParametric)))
      = ((pb.getData id).map
        (fun d => (d.identifier, d.numProbes, d.hasConvolution, d.hasParametric)))) :
    pb'.convFlag id = pb.convFlag id ∧ pb'.parFlag id = pb.parFlag id
      ∧ ((pb'.getData id).map (fun d => d.numProbes) = (pb.getData id).map (fun d => d.numProbes))
      ∧ ((pb'.getData id).map (fun d => d.identifier)
          = (pb.getData id).map (fun d => d.identifier))
      ∧ ((pb'.getData id).isSome = (pb.getData id).isSome) := by
  unfold ProbeBatch.convFlag ProbeBatch.parFlag
  cases h1 : pb'.getData id <;> cases h2 : pb.getData id <;> rw [h1, h2] at h <;> simp at h ⊢
  obtain ⟨ha, hb, hc, hd⟩ := h
  exact ⟨hc, hd, hb, ha⟩

theorem bake_meta (P : BakeParams) (g : GlobalFlags) (sig : Nat → Bool) (pb : ProbeBatch) :
    ((ReflectionBaker.bake P g sig pb).probeBatch.getData P.identifier).map
        (fun d => (d.identifier, d.numProbes, d.hasConvolution, d.hasParametric))
      = ((bakePrep P pb).getData P.identifier).map
        (fun d => (d.identifier, d.numProbes, d.hasConvolution, d.hasParametric)) := by
  rw [bake_probeBatch_eq]
  exact storeFold_meta P P.identifier _ _

theorem bake_convFlag (P : BakeParams) (g : GlobalFlags) (sig : Nat → Bool) (pb : ProbeBatch) :
    (ReflectionBaker.bake P g sig pb).probeBatch.convFlag P.identifier
      = (pb.convFlag P.identifier || P.bakeConvolution) := by
  have h := (meta_of_getData (bake_meta P g sig pb)).1
  rw [h, convFlag_bakePrep]

theorem bake_parFlag (P : BakeParams) (g : GlobalFlags) (sig : Nat → Bool) (pb : ProbeBatch) :
    (ReflectionBaker.bake P g sig pb).probeBatch.parFlag P.identifier
      = (pb.parFlag P.identifier || P.bakeParametric) := by
  have h := (meta_of_getData (bake_meta P g sig pb)).2.1
  rw [h, parFlag_bakePrep]

theorem pairwise_dropLast_lt_last {α : Type} {R : α → α → Prop} :
    ∀ (l : List α), List.Pairwise R l → ∀ x ∈ l.dropLast, ∃ y, l.getLast? = some y ∧ R x y := by
  intro l
  induction l with
  | nil => intro _ x hx; simp at hx
  | cons a rest ih =>
    intro hp x hx
    cases rest with
    | nil => simp at hx
    | cons b rest2 =>
      rw [List.dropLast_cons₂] at hx
      have hp' := List.pairwise_cons.mp hp
      rcases List.mem_cons.mp hx with hxa | hx2
      · subst hxa
        obtain ⟨y, hy⟩ := Option.isSome_iff_exists.mp
          ((List.getLast?_isSome (l := b :: rest2)).mpr (List.cons_ne_nil b rest2))
        refine ⟨y, ?_, hp'.1 y (List.mem_of_getLast?_eq_some hy)⟩
        rw [List.getLast?_cons_cons, hy]
      · obtain ⟨y, hy, hr⟩ := ih hp'.2 x hx2
        refine ⟨y, ?_, hr⟩
        rw [List.getLast?_cons_cons, hy]

/-- C5: for every dispatched batch with `k` eligible probes, the simulator is
called with `numSources = k`, `numListeners = 1` by default (CPU backends),
and on the GPU backend the counts are chosen per variation:
`StaticSource → (1, k)`, `StaticListener → (k, 1)`, `Reverb → (k, k)`. -/
theorem claim_C5 (P : BakeParams) (g : GlobalFlags) (sig : Nat → Bool) (pb : ProbeBatch)
    (hvar : P.identifier.variation ≠ BakedDataVariation.Dynamic) :
    ∀ k s l, (k, s, l) ∈ (ReflectionBaker.bake P g sig pb).events.filterMap simTriple →
      (P.sceneType ≠ SceneType.RadeonRays → s = k ∧ l = 1)
      ∧ (P.sceneType = SceneType.RadeonRays →
          (P.identifier.variation = BakedDataVariation.StaticSource → s = 1 ∧ l = k)
          ∧ (P.identifier.variation = BakedDataVariation.StaticListener → s = k ∧ l = 1)
          ∧ (P.identifier.variation = BakedDataVariation.Reverb → s = k ∧ l = k)) := by
  intro k s l hm
  rw [bake_events_simTriple] at hm
  obtain ⟨entry, hentry, heq⟩ := List.mem_map.mp hm
  rw [Prod.mk.injEq, Prod.mk.injEq] at heq
  obtain ⟨hk, hs2, hl2⟩ := heq
  unfold endpointCounts at hs2 hl2
  constructor
  · intro hcpu
    rw [if_neg hcpu] at hs2 hl2
    simp only at hs2 hl2
    omega
  · intro hgpu
    rw [if_pos hgpu] at hs2 hl2
    refine ⟨?_, ?_, ?_⟩ <;> intro hv <;> rw [hv] at hs2 hl2 <;> simp only at hs2 hl2 <;> omega

/-- C5 witness: a one-probe `Reverb` bake on the CPU backend produces the
simulate call `(1, 1, 1)`, as `claim_C5` predicts. -/
theorem claim_C5_witness :
    reverbIdent.variation ≠ BakedDataVariation.Dynamic
    ∧ ((baseParams.sceneType ≠ SceneType.RadeonRays → 1 = 1 ∧ 1 = 1)
      ∧ (baseParams.sceneType = SceneType.RadeonRays →
          (baseParams.identifier.variation = BakedDataVariation.StaticSource → 1 = 1 ∧ 1 = 1)
          ∧ (baseParams.identifier.variation = BakedDataVariation.StaticListener → 1 = 1 ∧ 1 = 1)
          ∧ (baseParams.identifier.variation = BakedDataVariation.Reverb → 1 = 1 ∧ 1 = 1))) :=
  ⟨by decide,
    claim_C5 baseParams ⟨false, false⟩ (fun _ => false) ⟨[probeZero], []⟩ (by decide)
      1 1 1 (by decide)⟩

/-- C3 counterexample: on the CPU backend with variation `StaticSource` and a
single probe lying outside the endpoint influence region, the bake still
performs one simulator invocation, and it processes 0 eligible probes, not
exactly one. -/
theorem claim_C3_counterexample :
    (ReflectionBaker.bake { baseParams with identifier := staticSourceIdent }
        ⟨false, false⟩ (fun _ => false) ⟨[probeFar], []⟩).events.filterMap simValidCount = [0]
    ∧ (0 : Nat) ≠ 1 := by
  constructor
  · decide
  · decide

/-- C3 (amended): with a positive requested batch size, every simulator
invocation processes at most `effectiveBatchSize` eligible probes, and every
invocation except possibly the final one (which is closed by probe-list
exhaustion and may process fewer, even zero) processes exactly
`effectiveBatchSize`; the effective batch size is 1 for a CPU backend with a
variation other than `StaticListener`, and the requested `bakeBatchSize` for
the GPU backend or the `StaticListener` variation. -/
theorem claim_C3 (P : BakeParams) (g : GlobalFlags) (sig : Nat → Bool) (pb : ProbeBatch)
    (hB : 1 ≤ P.bakeBatchSize) :
    (∀ x ∈ (ReflectionBaker.bake P g sig pb).events.filterMap simValidCount,
      x ≤ effectiveBatchSize P.sceneType P.identifier.variation P.bakeBatchSize)
    ∧ (∀ x ∈ ((ReflectionBaker.bake P g sig pb).events.filterMap simValidCount).dropLast,
      x = effectiveBatchSize P.sceneType P.identifier.variation P.bakeBatchSize)
    ∧ (P.sceneType ≠ SceneType.RadeonRays
        ∧ P.identifier.variation ≠ BakedDataVariation.StaticListener →
        effectiveBatchSize P.sceneType P.identifier.variation P.bakeBatchSize = 1)
    ∧ (P.sceneType = SceneType.RadeonRays
        ∨ P.identifier.variation = BakedDataVariation.StaticListener →
        effectiveBatchSize P.sceneType P.identifier.variation P.bakeBatchSize
          = P.bakeBatchSize) := by
  have hBeff : 1 ≤ effectiveBatchSize P.sceneType P.identifier.variation P.bakeBatchSize := by
    unfold effectiveBatchSize
    by_cases h : P.sceneType ≠ SceneType.RadeonRays
        ∧ P.identifier.variation ≠ BakedDataVariation.StaticListener
    · rw [if_pos h]
    · rw [if_neg h]
      exact hB
  rw [bake_events_simValid]
  refine ⟨?_, ?_, ?_, ?_⟩
  · intro x hx
    obtain ⟨entry, hentry, hlen⟩ := List.mem_map.mp hx
    have hplan : entry ∈ bakePlan P pb :=
      (execEntries_sublist sig (bakePlan P pb) 0 g.sCancel).mem hentry
    have := closePoints_chunk_bound (eligAt P.identifier pb.probes) _ pb.probes.length hBeff
      pb.probes.length 0 [] (by simpa using hBeff) entry hplan
    omega
  · intro x hx
    rw [← List.map_dropLast] at hx
    obtain ⟨entry, hentry, hlen⟩ := List.mem_map.mp hx
    have hpw : List.Pairwise (fun x y : Nat × List Nat => x.1 < y.1)
        (executedBatches P g sig pb) :=
      (closePoints_fst_pairwise (eligAt P.identifier pb.probes) _ pb.probes.length
        pb.probes.length 0 []).sublist (execEntries_sublist sig (bakePlan P pb) 0 g.sCancel)
    obtain ⟨y, hy, hxy⟩ := pairwise_dropLast_lt_last _ hpw entry hentry
    have hymem : y ∈ executedBatches P g sig pb := List.mem_of_getLast?_eq_some hy
    have hyplan : y ∈ bakePlan P pb :=
      (execEntries_sublist sig (bakePlan P pb) 0 g.sCancel).mem hymem
    have hybound := closePoints_idx_bound (eligAt P.identifier pb.probes) _ pb.probes.length
      pb.probes.length 0 [] y hyplan
    have hentryplan : entry ∈ bakePlan P pb :=
      (execEntries_sublist sig (bakePlan P pb) 0 g.sCancel).mem
        (List.mem_of_mem_dropLast hentry)
    have hbound := closePoints_chunk_bound (eligAt P.identifier pb.probes) _ pb.probes.length
      hBeff pb.probes.length 0 [] (by simpa using hBeff) entry hentryplan
    rcases hbound.2 with h1 | h1
    · omega
    · omega
  · intro h
    unfold effectiveBatchSize
    rw [if_pos h]
  · intro h
    unfold effectiveBatchSize
    rw [if_neg (by tauto)]

/-- C3 witness: a two-probe CPU `Reverb` bake yields the simulate sizes
`[1, 1]`: both at most the effective batch size 1 and the non-final one equal
to it. -/
theorem claim_C3_witness :
    1 ≤ baseParams.bakeBatchSize
    ∧ (∀ x ∈ (ReflectionBaker.bake baseParams ⟨false, false⟩ (fun _ => false)
        ⟨[probeZero, probeZero], []⟩).events.filterMap simValidCount,
        x ≤ effectiveBatchSize baseParams.sceneType baseParams.identifier.variation
          baseParams.bakeBatchSize) :=
  ⟨by decide,
    (claim_C3 baseParams ⟨false, false⟩ (fun _ => false) ⟨[probeZero, probeZero], []⟩
      (by decide)).1⟩

/-- C1 counterexample: 10 probes, variation `Reverb`, `bakeBatchSize = 4`,
CPU backend, `bakeParametric = true`, `bakeConvolution = false` — the bake
performs 10 simulator calls each processing 1 probe, not 3 calls processing
4, 4 and 2 probes: the CPU backend forces the effective batch size to 1 for
the `Reverb` variation. -/
theorem claim_C1_counterexample :
    (ReflectionBaker.bake baseParams ⟨false, false⟩ (fun _ => false)
        ⟨List.replicate 10 probeZero, []⟩).events.filterMap simValidCount
      = List.replicate 10 1
    ∧ (ReflectionBaker.bake baseParams ⟨false, false⟩ (fun _ => false)
        ⟨List.replicate 10 probeZero, []⟩).events.filterMap simValidCount ≠ [4, 4, 2] := by
  constructor
  · decide
  · decide

/-- C1 (amended): for a bake of 10 probes with variation `Reverb`, requested
`bakeBatchSize = 4`, a CPU backend, `bakeParametric = true` and
`bakeConvolution = false`, the bake performs 10 simulator calls, each
processing exactly 1 probe (the CPU backend forces the effective batch size
to 1 for any variation other than `StaticListener`); every one of the 10
probes ends with a stored Reverb, `hasParametric` ends `true`, and
`hasConvolution` is unchanged from its value before the call. -/
theorem claim_C1 (P : BakeParams) (g : GlobalFlags) (sig : Nat → Bool) (pb : ProbeBatch)
    (hvar : P.identifier.variation = BakedDataVariation.Reverb)
    (hcpu : P.sceneType ≠ SceneType.RadeonRays)
    (hpar : P.bakeParametric = true)
    (hconv : P.bakeConvolution = false)
    (hBin : P.bakeBatchSize = 4)
    (hn : pb.probes.length = 10)
    (hs : ∀ b, sig b = false) (hg : g.sCancel = false)
    (hsz : pb.dataSizedB P.identifier = true) :
    (ReflectionBaker.bake P g sig pb).events.filterMap simValidCount = List.replicate 10 1
    ∧ (∀ idx, idx < 10 →
        (ReflectionBaker.bake P g sig pb).probeBatch.reverbAt P.identifier idx
          = some (P.estimate (simulatedField P idx)))
    ∧ (ReflectionBaker.bake P g sig pb).probeBatch.parFlag P.identifier = true
    ∧ (ReflectionBaker.bake P g sig pb).probeBatch.convFlag P.identifier
        = pb.convFlag P.identifier := by
  have hBeff : effectiveBatchSize P.sceneType P.identifier.variation P.bakeBatchSize = 1 := by
    unfold effectiveBatchSize
    rw [if_pos ⟨hcpu, by rw [hvar]; intro h; exact absurd h (by intro hh; cases hh)⟩]
  have helig : ∀ j, j < pb.probes.length → eligAt P.identifier pb.probes j = true := by
    intro j hj
    unfold eligAt
    cases hp : pb.probes[j]? with
    | none =>
      rw [List.getElem?_eq_none_iff] at hp
      omega
    | some p =>
      unfold probeEligible
      rw [hvar]
  refine ⟨?_, ?_, ?_, ?_⟩
  · rw [bake_events_simValid]
    have hexec : executedBatches P g sig pb = bakePlan P pb := by
      unfold executedBatches
      rw [hg]
      exact execEntries_all_false sig hs (bakePlan P pb) 0
    rw [hexec]
    unfold bakePlan
    rw [hBeff]
    rw [closePoints_all_B1 (eligAt P.identifier pb.probes) pb.probes.length pb.probes.length 0
      (fun j h1 h2 => helig j (by omega))]
    rw [List.map_map]
    rw [hn]
    rfl
  · intro idx hidx
    exact bake_reverbAt_written P g sig pb idx hs hg (by omega) hsz
      (helig idx (by omega)) (by omega) hpar
  · rw [bake_parFlag, hpar, Bool.or_true]
  · rw [bake_convFlag, hconv, Bool.or_false]

/-- C1 witness: the amended scenario instantiated with 10 probes at the
origin and a fresh probe batch. -/
theorem claim_C1_witness :
    baseParams.identifier.variation = BakedDataVariation.Reverb
    ∧ baseParams.sceneType ≠ SceneType.RadeonRays
    ∧ baseParams.bakeParametric = true
    ∧ baseParams.bakeConvolution = false
    ∧ baseParams.bakeBatchSize = 4
    ∧ (ProbeBatch.mk (List.replicate 10 probeZero) []).probes.length = 10
    ∧ (ProbeBatch.mk (List.replicate 10 probeZero) []).dataSizedB baseParams.identifier = true
    ∧ (ReflectionBaker.bake baseParams ⟨false, false⟩ (fun _ => false)
        ⟨List.replicate 10 probeZero, []⟩).events.filterMap simValidCount
      = List.replicate 10 1 :=
  ⟨by decide, by decide, by decide, by decide, by decide, by decide, by decide,
    (claim_C1 baseParams ⟨false, false⟩ (fun _ => false) ⟨List.replicate 10 probeZero, []⟩
      (by decide) (by decide) (by decide) (by decide) (by decide) (by decide)
      (fun b => rfl) (by decide) (by decide)).1⟩

theorem findData_append_singleton_ne (l : List (BakedDataIdentifier × BakedReflectionsData))
    (id id' : BakedDataIdentifier) (d : BakedReflectionsData) (h : id' ≠ id) :
    findData (l ++ [(id, d)]) id' = findData l id' := by
  induction l with
  | nil =>
    simp only [List.nil_append, findData]
    rw [if_neg (fun he => h he.symm)]
  | cons kv rest ih =>
    simp only [List.cons_append, findData]
    by_cases hk : kv.1 = id'
    · rw [if_pos hk, if_pos hk]
    · rw [if_neg hk, if_neg hk]
      exact ih

theorem bakePrep_getData_ne (P : BakeParams) (pb : ProbeBatch) (id' : BakedDataIdentifier)
    (h : id' ≠ P.identifier) :
    (bakePrep P pb).getData id' = pb.getData id' := by
  unfold bakePrep
  by_cases hd : pb.hasData P.identifier = true
  · rw [if_pos hd]
    exact getData_modifyData_ne pb P.identifier id' _ h
  · rw [if_neg hd, getData_modifyData_ne _ P.identifier id' _ h]
    exact findData_append_singleton_ne pb.data P.identifier id' _ h

theorem getData_parametricPass_ne (P : BakeParams) (c : List Nat) (pb : ProbeBatch)
    (id' : BakedDataIdentifier) (h : id' ≠ P.identifier) :
    (parametricPass P c pb).getData id' = pb.getData id' := by
  rw [parametricPass_eq]
  exact getData_modifyData_ne pb P.identifier id' _ h

theorem getData_convolutionPass_ne (P : BakeParams) (c : List Nat) (pb : ProbeBatch)
    (id' : BakedDataIdentifier) (h : id' ≠ P.identifier) :
    (convolutionPass P c pb).getData id' = pb.getData id' := by
  rw [convolutionPass_eq]
  exact getData_modifyData_ne pb P.identifier id' _ h

theorem getData_closeBatchStore_ne (P : BakeParams) (c : List Nat) (pb : ProbeBatch)
    (id' : BakedDataIdentifier) (h : id' ≠ P.identifier) :
    (closeBatchStore P c pb).getData id' = pb.getData id' := by
  unfold closeBatchStore
  dsimp only
  by_cases hc : P.bakeConvolution = true
  · rw [if_pos hc, getData_convolutionPass_ne P c _ id' h]
    by_cases hp : P.bakeParametric = true
    · rw [if_pos hp, getData_parametricPass_ne P c pb id' h]
    · rw [if_neg hp]
  · rw [if_neg hc]
    by_cases hp : P.bakeParametric = true
    · rw [if_pos hp, getData_parametricPass_ne P c pb id' h]
    · rw [if_neg hp]

theorem storeFold_getData_ne (P : BakeParams) (id' : BakedDataIdentifier)
    (h : id' ≠ P.identifier) :
    ∀ (entries : List (Nat × List Nat)) (pb : ProbeBatch),
      ((entries.foldl (fun acc entry => closeBatchStore P entry.2 acc) pb)).getData id'
        = pb.getData id' := by
  intro entries
  induction entries with
  | nil => intro pb; rfl
  | cons entry rest ih =>
    intro pb
    rw [List.foldl_cons, ih, getData_closeBatchStore_ne P entry.2 pb id' h]

theorem bake_getData_ne (P : BakeParams) (g : GlobalFlags) (sig : Nat → Bool)
    (pb : ProbeBatch) (id' : BakedDataIdentifier) (h : id' ≠ P.identifier) :
    (ReflectionBaker.bake P g sig pb).probeBatch.getData id' = pb.getData id' := by
  rw [bake_probeBatch_eq, storeFold_getData_ne P id' h]
  exact bakePrep_getData_ne P pb id' h

theorem storeFold_reverbAt_noPar (P : BakeParams) (idx : Nat)
    (hp : P.bakeParametric = false) :
    ∀ (entries : List (Nat × List Nat)) (pb : ProbeBatch),
      (entries.foldl (fun acc entry => closeBatchStore P entry.2 acc) pb).reverbAt
          P.identifier idx
        = pb.reverbAt P.identifier idx := by
  intro entries
  induction entries with
  | nil => intro pb; rfl
  | cons entry rest ih =>
    intro pb
    rw [List.foldl_cons, ih, reverbAt_closeBatchStore]
    rw [if_neg (fun hcond => by rw [hp] at hcond; exact Bool.false_ne_true hcond.1)]

theorem storeFold_fieldAt_noConv (P : BakeParams) (idx : Nat)
    (hc : P.bakeConvolution = false) :
    ∀ (entries : List (Nat × List Nat)) (pb : ProbeBatch),
      (entries.foldl (fun acc entry => closeBatchStore P entry.2 acc) pb).fieldAt
          P.identifier idx
        = pb.fieldAt P.identifier idx := by
  intro entries
  induction entries with
  | nil => intro pb; rfl
  | cons entry rest ih =>
    intro pb
    rw [List.foldl_cons, ih, fieldAt_closeBatchStore]
    rw [if_neg (fun hcond => by rw [hc] at hcond; exact Bool.false_ne_true hcond.1)]

/-- C2: at most one Baked Reflections Data per identifier per batch, and the
one created on first bake is never replaced by later bakes of the same
identifier: the `hasData` guard of lines 106-113 skips creation when a store
exists, so an existing store survives the call with its creation-time
identifier and probe count intact, every other identifier's store is left
untouched, and since each post-processing pass only runs when its output kind
is requested (lines 211 and 222), a later bake that requests only one output
kind leaves every stored entry of the other kind in place rather than
overwriting it; the capability flags accumulate, the new value being the old
one OR-ed with this invocation's request (flag setters spec-modelled, see
`BakedReflectionsData.setHasConvolution`). -/
theorem claim_C2 (P : BakeParams) (g : GlobalFlags) (sig : Nat → Bool) (pb : ProbeBatch)
    (d : BakedReflectionsData) (h : pb.getData P.identifier = some d) :
    (∃ d', (ReflectionBaker.bake P g sig pb).probeBatch.getData P.identifier = some d'
      ∧ d'.identifier = d.identifier
      ∧ d'.numProbes = d.numProbes
      ∧ d'.hasConvolution = (d.hasConvolution || P.bakeConvolution)
      ∧ d'.hasParametric = (d.hasParametric || P.bakeParametric))
    ∧ (P.bakeParametric = false →
        ∀ idx, (ReflectionBaker.bake P g sig pb).probeBatch.reverbAt P.identifier idx
          = pb.reverbAt P.identifier idx)
    ∧ (P.bakeConvolution = false →
        ∀ idx, (ReflectionBaker.bake P g sig pb).probeBatch.fieldAt P.identifier idx
          = pb.fieldAt P.identifier idx)
    ∧ (∀ id', id' ≠ P.identifier →
        (ReflectionBaker.bake P g sig pb).probeBatch.getData id' = pb.getData id') := by
  refine ⟨?_, ?_, ?_, ?_⟩
  · have hmeta := bake_meta P g sig pb
    rw [bakePrep_getData, h] at hmeta
    cases hb : (ReflectionBaker.bake P g sig pb).probeBatch.getData P.identifier with
    | none =>
      rw [hb] at hmeta
      simp at hmeta
    | some d' =>
      rw [hb] at hmeta
      simp only [Option.map_some', Option.some_inj, BakedReflectionsData.setHasConvolution,
        BakedReflectionsData.setHasParametric, Prod.mk.injEq] at hmeta
      exact ⟨d', rfl, hmeta.1, hmeta.2.1, hmeta.2.2.1, hmeta.2.2.2⟩
  · intro hp idx
    rw [bake_probeBatch_eq, storeFold_reverbAt_noPar P idx hp]
    exact reverbAt_bakePrep P pb idx
  · intro hc idx
    rw [bake_probeBatch_eq, storeFold_fieldAt_noConv P idx hc]
    exact fieldAt_bakePrep P pb idx
  · intro id' hne
    exact bake_getData_ne P g sig pb id' hne

/-- C2 witness: a second (parametric-only) bake over a batch that already
owns a store keeps that store with its creation-time attributes,
OR-accumulates the flags, and leaves every stored energy field in place. -/
theorem claim_C2_witness :
    (ProbeBatch.mk [probeZero]
        [(reverbIdent, BakedReflectionsData.init reverbIdent 1 false true)]).getData
        baseParams.identifier
      = some (BakedReflectionsData.init reverbIdent 1 false true)
    ∧ (∃ d', (ReflectionBaker.bake baseParams ⟨false, false⟩ (fun _ => false)
          ⟨[probeZero], [(reverbIdent, BakedReflectionsData.init reverbIdent 1 false true)]⟩
        ).probeBatch.getData baseParams.identifier = some d'
      ∧ d'.identifier = (BakedReflectionsData.init reverbIdent 1 false true).identifier
      ∧ d'.numProbes = (BakedReflectionsData.init reverbIdent 1 false true).numProbes
      ∧ d'.hasConvolution
          = ((BakedReflectionsData.init reverbIdent 1 false true).hasConvolution
            || baseParams.bakeConvolution)
      ∧ d'.hasParametric
          = ((BakedReflectionsData.init reverbIdent 1 false true).hasParametric
            || baseParams.bakeParametric))
    ∧ (baseParams.bakeConvolution = false →
        ∀ idx, (ReflectionBaker.bake baseParams ⟨false, false⟩ (fun _ => false)
            ⟨[probeZero], [(reverbIdent, BakedReflectionsData.init reverbIdent 1 false true)]⟩
          ).probeBatch.fieldAt baseParams.identifier idx
          = (ProbeBatch.mk [probeZero]
              [(reverbIdent, BakedReflectionsData.init reverbIdent 1 false true)]).fieldAt
            baseParams.identifier idx) :=
  ⟨by decide,
    (claim_C2 baseParams ⟨false, false⟩ (fun _ => false)
      ⟨[probeZero], [(reverbIdent, BakedReflectionsData.init reverbIdent 1 false true)]⟩
      (BakedReflectionsData.init reverbIdent 1 false true) (by decide)).1,
    (claim_C2 baseParams ⟨false, false⟩ (fun _ => false)
      ⟨[probeZero], [(reverbIdent, BakedReflectionsData.init reverbIdent 1 false true)]⟩
      (BakedReflectionsData.init reverbIdent 1 false true) (by decide)).2.2.1⟩

/-- C4 (code bug): with convolution output requested and
`simDuration = bakeDuration`, the diagnostic WAV dump of line 240 reads the
`energyFields[j]` slot after line 230 has moved the simulated field out of it
into storage: the dump's source is the emptied slot (a null `unique_ptr`
dereference in the C++), so no WAV with the simulated field's impulse
response is produced; with differing durations the slot still owns the
simulated field and the dump is written from it at the fixed path with the
fixed 44100 Hz mono 32-bit-float format. -/
theorem claim_C4_bug :
    (ReflectionBaker.bake { baseParams with bakeConvolution := true, bakeParametric := false }
        ⟨false, false⟩ (fun _ => false) ⟨[probeZero], []⟩).events.filter isWavWrite
      = [BakeEvent.wavWrite 0 "output/impulse_response_0.wav" 44100 1 32 none]
    ∧ ({ baseParams with bakeConvolution := true, bakeParametric := false } : BakeParams).simDuration
      = ({ baseParams with bakeConvolution := true, bakeParametric := false } : BakeParams).bakeDuration
    ∧ (ReflectionBaker.bake { baseParams with bakeConvolution := true, bakeParametric := false, bakeDuration := 2 }
        ⟨false, false⟩ (fun _ => false) ⟨[probeZero], []⟩).events.filter isWavWrite
      = [BakeEvent.wavWrite 0 "output/impulse_response_0.wav" 44100 1 32
          (some { duration := 1, order := 0, data := [] })] := by
  refine ⟨?_, ?_, ?_⟩ <;> decide

/-- C6: for every eligible probe in a completed bake with convolution
requested, the stored field is the simulated field itself when
`simDuration = bakeDuration` (ownership moved, content identical), and
otherwise a freshly allocated field of duration exactly `bakeDuration` and
the same ambisonic order holding the simulated content copied and truncated,
while the simulated field itself keeps the simulation duration and is not
stored. -/
theorem claim_C6 (P : BakeParams) (g : GlobalFlags) (sig : Nat → Bool) (pb : ProbeBatch)
    (idx : Nat)
    (hconv : P.bakeConvolution = true)
    (hs : ∀ b, sig b = false) (hg : g.sCancel = false)
    (hB : 1 ≤ effectiveBatchSize P.sceneType P.identifier.variation P.bakeBatchSize)
    (hsz : pb.dataSizedB P.identifier = true)
    (helig : eligAt P.identifier pb.probes idx = true)
    (hidx : idx < pb.probes.length) :
    (ReflectionBaker.bake P g sig pb).probeBatch.fieldAt P.identifier idx
        = some (storedFieldFor P idx)
    ∧ (P.simDuration = P.bakeDuration → storedFieldFor P idx = simulatedField P idx)
    ∧ (P.simDuration ≠ P.bakeDuration →
        (storedFieldFor P idx).duration = P.bakeDuration
        ∧ (storedFieldFor P idx).order = P.order
        ∧ (storedFieldFor P idx).data
            = (simulatedField P idx).data.take P.bakeDuration
              ++ List.replicate (P.bakeDuration - (simulatedField P idx).data.length) 0
        ∧ (simulatedField P idx).duration = P.simDuration) := by
  refine ⟨bake_fieldAt_written P g sig pb idx hs hg hB hsz helig hidx hconv, ?_, ?_⟩
  · intro h
    unfold storedFieldFor
    rw [if_pos h]
  · intro h
    unfold storedFieldFor
    rw [if_neg h]
    exact ⟨rfl, rfl, rfl, rfl⟩

/-- C6 witness: one eligible probe, `simDuration = 1`, `bakeDuration = 2`. -/
theorem claim_C6_witness :
    ({ baseParams with bakeConvolution := true, bakeDuration := 2 } : BakeParams).bakeConvolution = true
    ∧ eligAt baseParams.identifier [probeZero] 0 = true
    ∧ (ReflectionBaker.bake { baseParams with bakeConvolution := true, bakeDuration := 2 }
        ⟨false, false⟩ (fun _ => false) ⟨[probeZero], []⟩).probeBatch.fieldAt
        baseParams.identifier 0
      = some (storedFieldFor { baseParams with bakeConvolution := true, bakeDuration := 2 } 0) :=
  ⟨by decide, by decide,
    (claim_C6 { baseParams with bakeConvolution := true, bakeDuration := 2 }
      ⟨false, false⟩ (fun _ => false) ⟨[probeZero], []⟩ 0
      (by decide) (fun b => rfl) (by decide) (by decide) (by decide) (by decide) (by decide)).1⟩

/-- C7: for the static variations, a probe is eligible exactly when the
identifier's endpoint influence region contains the probe center; a probe
whose center lies outside has both its stored Reverb and its stored Energy
Field left exactly as before the call, and an eligible probe of a completed
parametric bake has its Reverb written. -/
theorem claim_C7 (P : BakeParams) (g : GlobalFlags) (sig : Nat → Bool) (pb : ProbeBatch)
    (idx : Nat) (p : Probe)
    (hvar : P.identifier.variation = BakedDataVariation.StaticSource
      ∨ P.identifier.variation = BakedDataVariation.StaticListener)
    (hp : pb.probes[idx]? = some p) :
    (probeEligible P.identifier p
      = P.identifier.endpointInfluence.contains p.influence.center)
    ∧ (P.identifier.endpointInfluence.contains p.influence.center = false →
        (ReflectionBaker.bake P g sig pb).probeBatch.reverbAt P.identifier idx
            = pb.reverbAt P.identifier idx
        ∧ (ReflectionBaker.bake P g sig pb).probeBatch.fieldAt P.identifier idx
            = pb.fieldAt P.identifier idx)
    ∧ (P.identifier.endpointInfluence.contains p.influence.center = true →
        (∀ b, sig b = false) → g.sCancel = false →
        1 ≤ effectiveBatchSize P.sceneType P.identifier.variation P.bakeBatchSize →
        pb.dataSizedB P.identifier = true →
        P.bakeParametric = true →
        (ReflectionBaker.bake P g sig pb).probeBatch.reverbAt P.identifier idx
          = some (P.estimate (simulatedField P idx))) := by
  have heq : probeEligible P.identifier p
      = P.identifier.endpointInfluence.contains p.influence.center := by
    unfold probeEligible
    rcases hvar with hv | hv <;> rw [hv]
  refine ⟨heq, ?_, ?_⟩
  · intro hout
    have hinelig : eligAt P.identifier pb.probes idx = false := by
      unfold eligAt
      rw [hp]
      show probeEligible P.identifier p = false
      rw [heq, hout]
    exact ⟨bake_reverbAt_untouched P g sig pb idx hinelig,
      bake_fieldAt_untouched P g sig pb idx hinelig⟩
  · intro hin hs hg hB hsz hpar
    have helig : eligAt P.identifier pb.probes idx = true := by
      unfold eligAt
      rw [hp]
      show probeEligible P.identifier p = true
      rw [heq, hin]
    have hidx : idx < pb.probes.length := by
      by_contra hc
      rw [List.getElem?_eq_none (by omega)] at hp
      cases hp
    exact bake_reverbAt_written P g sig pb idx hs hg hB hsz helig hidx hpar

/-- C7 witness: `StaticSource` with one probe inside the unit influence
sphere and one outside; the outside probe is untouched. -/
theorem claim_C7_witness :
    (staticSourceIdent.variation = BakedDataVariation.StaticSource
      ∨ staticSourceIdent.variation = BakedDataVariation.StaticListener)
    ∧ (ProbeBatch.mk [probeZero, probeFar] []).probes[1]? = some probeFar
    ∧ (staticSourceIdent.endpointInfluence.contains probeFar.influence.center = false →
        (ReflectionBaker.bake { baseParams with identifier := staticSourceIdent }
            ⟨false, false⟩ (fun _ => false) ⟨[probeZero, probeFar], []⟩).probeBatch.reverbAt
            staticSourceIdent 1 = (ProbeBatch.mk [probeZero, probeFar] []).reverbAt
            staticSourceIdent 1
        ∧ (ReflectionBaker.bake { baseParams with identifier := staticSourceIdent }
            ⟨false, false⟩ (fun _ => false) ⟨[probeZero, probeFar], []⟩).probeBatch.fieldAt
            staticSourceIdent 1 = (ProbeBatch.mk [probeZero, probeFar] []).fieldAt
            staticSourceIdent 1) :=
  ⟨Or.inl (by decide), by decide,
    ((claim_C7 { baseParams with identifier := staticSourceIdent } ⟨false, false⟩
      (fun _ => false) ⟨[probeZero, probeFar], []⟩ 1 probeFar (Or.inl (by decide))
      (by decide)).2.1)⟩

/-- C8: a cancellation request observed at the boundary of batch `b` stops
the bake there — exactly `b + 1` simulator calls run, the trace ends at that
batch's cancellation check, and the shared `sCancel` flag is cleared; probes
outside the executed batches keep their previous stored data (no rollback is
performed, and probes already written keep the new data); `cancel()` with no
bake in progress leaves the shared flags unchanged and a subsequent bake
behaves exactly as if `cancel()` had never been called. -/
theorem claim_C8 (P : BakeParams) (sig : Nat → Bool) (pb : ProbeBatch) (b : Nat)
    (hfirst : ∀ j, j < b → sig j = false)
    (hb : sig b = true)
    (hreach : b < (bakePlan P pb).length) :
    (∀ g : GlobalFlags, g.sBakeInProgress = false → ReflectionBaker.cancel g = g)
    ∧ ReflectionBaker.bake P (ReflectionBaker.cancel ⟨false, false⟩) sig pb
        = ReflectionBaker.bake P ⟨false, false⟩ sig pb
    ∧ ((ReflectionBaker.bake P ⟨false, false⟩ sig pb).events.filterMap simValidCount).length
        = b + 1
    ∧ (ReflectionBaker.bake P ⟨false, false⟩ sig pb).events.getLast?
        = some (BakeEvent.cancelCheck true)
    ∧ (ReflectionBaker.bake P ⟨false, false⟩ sig pb).sCancelFinal = false
    ∧ (∀ idx, (∀ entry ∈ (bakePlan P pb).take (b + 1), idx ∉ entry.2) →
        (ReflectionBaker.bake P ⟨false, false⟩ sig pb).probeBatch.reverbAt P.identifier idx
            = pb.reverbAt P.identifier idx
        ∧ (ReflectionBaker.bake P ⟨false, false⟩ sig pb).probeBatch.fieldAt P.identifier idx
            = pb.fieldAt P.identifier idx)
    ∧ (P.bakeParametric = true → pb.dataSizedB P.identifier = true →
        ∀ idx entry, entry ∈ (bakePlan P pb).take (b + 1) → idx ∈ entry.2 →
          idx < pb.probes.length →
          (ReflectionBaker.bake P ⟨false, false⟩ sig pb).probeBatch.reverbAt P.identifier idx
            = some (P.estimate (simulatedField P idx))) := by
  have hexec : executedBatches P ⟨false, false⟩ sig pb = (bakePlan P pb).take (b + 1) := by
    unfold executedBatches
    exact execEntries_cancel sig (bakePlan P pb) 0 b
      (fun j hj => by simpa using hfirst j hj) (by simpa using hb) hreach
  have hshape := runPlan_cancel_shape P pb.probes.length sig (bakePlan P pb) 0 b
    (bakePrep P pb) (fun j hj => by simpa using hfirst j hj) (by simpa using hb) hreach
  refine ⟨?_, ?_, ?_, ?_, ?_, ?_, ?_⟩
  · intro g hg
    unfold ReflectionBaker.cancel
    rw [if_neg (by rw [hg]; exact Bool.false_ne_true)]
  · rfl
  · rw [bake_events_simValid, hexec]
    rw [List.length_map, List.length_take]
    omega
  · rw [bake_eq_runPlan]
    exact hshape.1
  · rw [bake_eq_runPlan]
    exact hshape.2
  · intro idx hout
    rw [bake_probeBatch_eq, hexec]
    rw [storeFold_reverbAt_untouched P idx _ _ hout,
      storeFold_fieldAt_untouched P idx _ _ hout]
    exact ⟨reverbAt_bakePrep P pb idx, fieldAt_bakePrep P pb idx⟩
  · intro hpar hsz idx entry hentry hin hidx
    rw [bake_probeBatch_eq, hexec]
    refine storeFold_reverbAt_written P idx hpar _ _ ⟨entry, hentry, hin⟩ ?_
    rw [revLen_bakePrep P pb hsz]
    exact hidx

/-- C8 witness: a cancellation request pending at the first batch boundary of
a two-probe CPU `Reverb` bake stops it after one simulator call, clears the
flag, and ends the trace at the observed cancellation check. -/
theorem claim_C8_witness :
    (fun j => decide (j = 0)) 0 = true
    ∧ 0 < (bakePlan baseParams (ProbeBatch.mk [probeZero, probeZero] [])).length
    ∧ ((ReflectionBaker.bake baseParams ⟨false, false⟩ (fun j => decide (j = 0))
        ⟨[probeZero, probeZero], []⟩).events.filterMap simValidCount).length = 0 + 1
    ∧ (ReflectionBaker.bake baseParams ⟨false, false⟩ (fun j => decide (j = 0))
        ⟨[probeZero, probeZero], []⟩).events.getLast? = some (BakeEvent.cancelCheck true)
    ∧ (ReflectionBaker.bake baseParams ⟨false, false⟩ (fun j => decide (j = 0))
        ⟨[probeZero, probeZero], []⟩).sCancelFinal = false :=
  ⟨by decide, by decide,
    (claim_C8 baseParams (fun j => decide (j = 0)) ⟨[probeZero, probeZero], []⟩ 0
      (fun j hj => absurd hj (Nat.not_lt_zero j)) (by decide) (by decide)).2.2.1,
    (claim_C8 baseParams (fun j => decide (j = 0)) ⟨[probeZero, probeZero], []⟩ 0
      (fun j hj => absurd hj (Nat.not_lt_zero j)) (by decide) (by decide)).2.2.2.1,
    (claim_C8 baseParams (fun j => decide (j = 0)) ⟨[probeZero, probeZero], []⟩ 0
      (fun j hj => absurd hj (Nat.not_lt_zero j)) (by decide) (by decide)).2.2.2.2.1⟩

/-- C9: with no callback supplied no progress is reported; with a callback,
the reported values are exactly one per executed batch, in probe order, equal
to `(closeIndex + 1) / numProbes`, strictly increasing (hence
non-decreasing), and a bake that runs to completion without cancellation on a
nonempty probe list reports 1 as its final value. -/
theorem claim_C9 (P : BakeParams) (g : GlobalFlags) (sig : Nat → Bool) (pb : ProbeBatch) :
    (P.hasCallback = false →
      (ReflectionBaker.bake P g sig pb).events.filterMap progressValue = [])
    ∧ (P.hasCallback = true →
      (ReflectionBaker.bake P g sig pb).events.filterMap progressValue
          = (executedBatches P g sig pb).map
            (fun entry => ((entry.1 : ℚ) + 1) / (pb.probes.length : ℚ))
        ∧ List.Pairwise (· < ·)
            ((ReflectionBaker.bake P g sig pb).events.filterMap progressValue)
        ∧ ((∀ b, sig b = false) → g.sCancel = false → pb.probes ≠ [] →
            ((ReflectionBaker.bake P g sig pb).events.filterMap progressValue).getLast?
              = some 1)) := by
  constructor
  · intro hcb
    rw [bake_events_progress, if_neg (by rw [hcb]; exact Bool.false_ne_true)]
  · intro hcb
    have heq : (ReflectionBaker.bake P g sig pb).events.filterMap progressValue
        = (executedBatches P g sig pb).map
          (fun entry => ((entry.1 : ℚ) + 1) / (pb.probes.length : ℚ)) := by
      rw [bake_events_progress, if_pos hcb]
    refine ⟨heq, ?_, ?_⟩
    · rw [heq]
      cases hex : executedBatches P g sig pb with
      | nil => simp
      | cons entry rest =>
        have hn : 1 ≤ pb.probes.length := by
          have hmem : entry ∈ executedBatches P g sig pb := by
            rw [hex]
            exact List.mem_cons_self _ _
          have hplan : entry ∈ bakePlan P pb :=
            (execEntries_sublist sig (bakePlan P pb) 0 g.sCancel).mem hmem
          have := closePoints_idx_bound (eligAt P.identifier pb.probes) _ pb.probes.length
            pb.probes.length 0 [] entry hplan
          omega
        have hpos : (0 : ℚ) < (pb.probes.length : ℚ) := by
          exact_mod_cast Nat.lt_of_lt_of_le Nat.zero_lt_one hn
        have hpw : List.Pairwise (fun x y : Nat × List Nat => x.1 < y.1)
            (executedBatches P g sig pb) :=
          (closePoints_fst_pairwise (eligAt P.identifier pb.probes) _ pb.probes.length
            pb.probes.length 0 []).sublist (execEntries_sublist sig (bakePlan P pb) 0 g.sCancel)
        rw [hex] at hpw
        rw [← hex]
        rw [hex]
        refine List.Pairwise.map _ ?_ hpw
        intro x y hxy
        rw [div_lt_div_right hpos]
        have : (x.1 : ℚ) < (y.1 : ℚ) := by exact_mod_cast hxy
        linarith
    · intro hs hg hne
      rw [heq]
      have hexec : executedBatches P g sig pb = bakePlan P pb := by
        unfold executedBatches
        rw [hg]
        exact execEntries_all_false sig hs (bakePlan P pb) 0
      have hn : 1 ≤ pb.probes.length := by
        cases hp : pb.probes with
        | nil => exact absurd hp hne
        | cons a l => simp [hp]
      obtain ⟨c, hlast⟩ := closePoints_last (eligAt P.identifier pb.probes)
        (effectiveBatchSize P.sceneType P.identifier.variation P.bakeBatchSize)
        pb.probes.length pb.probes.length 0 [] hn (by omega)
      rw [hexec]
      rw [List.getLast?_map]
      unfold bakePlan
      rw [hlast]
      have hcast : ((pb.probes.length - 1 : Nat) : ℚ) + 1 = (pb.probes.length : ℚ) := by
        have h1 : ((pb.probes.length - 1 : Nat) : ℚ) = (pb.probes.length : ℚ) - 1 := by
          push_cast [hn]
          ring
        rw [h1]
        ring
      simp only [Option.map_some']
      rw [hcast, div_self (by positivity)]

/-- C9 witness: a two-probe CPU `Reverb` bake with a callback reports the
values 1/2 and 1. -/
theorem claim_C9_witness :
    ({ baseParams with hasCallback := true } : BakeParams).hasCallback = true
    ∧ (ReflectionBaker.bake { baseParams with hasCallback := true } ⟨false, false⟩
        (fun _ => false) ⟨[probeZero, probeZero], []⟩).events.filterMap progressValue
      = (executedBatches { baseParams with hasCallback := true } ⟨false, false⟩
          (fun _ => false) ⟨[probeZero, probeZero], []⟩).map
        (fun entry => ((entry.1 : ℚ) + 1)
          / ((ProbeBatch.mk [probeZero, probeZero] []).probes.length : ℚ)) :=
  ⟨by decide,
    ((claim_C9 { baseParams with hasCallback := true } ⟨false, false⟩ (fun _ => false)
      ⟨[probeZero, probeZero], []⟩).2 (by decide)).1⟩

theorem countP_range_eligAt (id : BakedDataIdentifier) :
    ∀ (probes : List Probe),
      (List.range' 0 probes.length).countP (eligAt id probes)
        = probes.countP (probeEligible id) := by
  intro probes
  induction probes with
  | nil => rfl
  | cons p rest ih =>
    rw [List.length_cons, List.range'_succ, List.countP_cons, List.countP_cons]
    have hz : eligAt id (p :: rest) 0 = probeEligible id p := by
      unfold eligAt
      rw [List.getElem?_cons_zero]
    have hshift : (List.range' (0 + 1) rest.length).countP (eligAt id (p :: rest))
        = (List.range' 0 rest.length).countP (eligAt id rest) := by
      rw [List.range'_eq_map_range, List.range'_eq_map_range, List.countP_map,
        List.countP_map]
      congr 1
      funext j
      show eligAt id (p :: rest) (0 + 1 + j) = eligAt id rest (0 + j)
      unfold eligAt
      rw [show 0 + 1 + j = j + 1 by omega, show 0 + j = j by omega]
      rw [List.getElem?_cons_succ]
    rw [hz, hshift, ih]

/-- C10: when the probes remaining after the last full batch are all
ineligible, the batch closing at the final probe index is empty, yet it is
still dispatched: the simulator is invoked with an eligible count of 0 (so
`numSources = 0`, `numListeners = 1` on the default CPU path), the job graph
is still run, the progress callback still fires (reporting 1), and the
cancellation flag is still checked. -/
theorem claim_C10 (P : BakeParams) (sig : Nat → Bool) (pb : ProbeBatch) (p : Probe)
    (hB : 1 ≤ effectiveBatchSize P.sceneType P.identifier.variation P.bakeBatchSize)
    (hne : pb.probes ≠ [])
    (hlastp : pb.probes.getLast? = some p)
    (hinelig : probeEligible P.identifier p = false)
    (hmod : pb.probes.countP (probeEligible P.identifier)
        % effectiveBatchSize P.sceneType P.identifier.variation P.bakeBatchSize = 0)
    (hs : ∀ b, sig b = false)
    (hcb : P.hasCallback = true) :
    (bakePlan P pb).getLast? = some (pb.probes.length - 1, [])
    ∧ (∃ evpre, (ReflectionBaker.bake P ⟨false, false⟩ sig pb).events
        = evpre ++ [BakeEvent.simulate 0
            (endpointCounts P.sceneType P.identifier.variation 0).1
            (endpointCounts P.sceneType P.identifier.variation 0).2,
          BakeEvent.jobRun,
          BakeEvent.progress 1,
          BakeEvent.cancelCheck false])
    ∧ (P.sceneType ≠ SceneType.RadeonRays →
        (endpointCounts P.sceneType P.identifier.variation 0).1 = 0
        ∧ (endpointCounts P.sceneType P.identifier.variation 0).2 = 1) := by
  have hn : 1 ≤ pb.probes.length := by
    cases hp : pb.probes with
    | nil => exact absurd hp hne
    | cons a l => simp [hp]
  have hlaste : eligAt P.identifier pb.probes (pb.probes.length - 1) = false := by
    unfold eligAt
    rw [← List.getLast?_eq_getElem?, hlastp]
    exact hinelig
  have hcount : (List.range' 0 pb.probes.length).countP (eligAt P.identifier pb.probes)
      = pb.probes.countP (probeEligible P.identifier) := countP_range_eligAt P.identifier pb.probes
  have hlast : (bakePlan P pb).getLast? = some (pb.probes.length - 1, []) := by
    unfold bakePlan
    refine closePoints_last_empty (eligAt P.identifier pb.probes) _ pb.probes.length hB
      pb.probes.length 0 [] (by simpa using hB) (by omega) hn hlaste ?_
    rw [hcount]
    simpa using hmod
  refine ⟨hlast, ?_, ?_⟩
  · have hplanne : bakePlan P pb ≠ [] := by
      intro hnil
      rw [hnil] at hlast
      cases hlast
    obtain ⟨pre, hpre⟩ : ∃ pre, bakePlan P pb = pre ++ [(pb.probes.length - 1, [])] := by
      have h1 := List.dropLast_concat_getLast hplanne
      have h2 : (bakePlan P pb).getLast hplanne = (pb.probes.length - 1, []) := by
        have h3 := List.getLast?_eq_getLast (bakePlan P pb) hplanne
        rw [h3] at hlast
        exact Option.some_inj.mp hlast
      refine ⟨(bakePlan P pb).dropLast, ?_⟩
      rw [← h2]
      exact h1.symm
    rw [bake_eq_runPlan]
    dsimp only
    rw [hpre]
    obtain ⟨evpre, hev⟩ := runPlan_full_append P pb.probes.length sig hs pre
      (pb.probes.length - 1, []) 0 (bakePrep P pb)
    refine ⟨evpre, ?_⟩
    rw [hev]
    have hclose : closeBatchEvents P pb.probes.length (pb.probes.length - 1) []
        = [BakeEvent.simulate 0
            (endpointCounts P.sceneType P.identifier.variation 0).1
            (endpointCounts P.sceneType P.identifier.variation 0).2,
          BakeEvent.jobRun,
          BakeEvent.progress 1] := by
      unfold closeBatchEvents
      rw [if_pos hcb]
      have hval : (((pb.probes.length - 1 : Nat) : ℚ) + 1) / (pb.probes.length : ℚ) = 1 := by
        have h1 : ((pb.probes.length - 1 : Nat) : ℚ) = (pb.probes.length : ℚ) - 1 := by
          push_cast [hn]
          ring
        rw [h1, sub_add_cancel, div_self]
        exact Nat.cast_ne_zero.mpr (by omega)
      simp only [List.length_nil, List.map_nil, ite_self, List.nil_append, List.append_nil]
      rw [hval]
      rfl
    rw [hclose]
    simp [List.append_assoc]
  · intro hcpu
    unfold endpointCounts
    rw [if_neg hcpu]
    exact ⟨rfl, rfl⟩

/-- C10 witness: `StaticSource` on the CPU backend with a single ineligible
probe — the final (and only) batch is empty yet fully dispatched. -/
theorem claim_C10_witness :
    ([probeFar] : List Probe) ≠ []
    ∧ (probeEligible staticSourceIdent probeFar = false)
    ∧ (bakePlan { baseParams with identifier := staticSourceIdent, hasCallback := true }
        (ProbeBatch.mk [probeFar] [])).getLast?
      = some ((ProbeBatch.mk [probeFar] []).probes.length - 1, []) :=
  ⟨by decide, by decide,
    (claim_C10 { baseParams with identifier := staticSourceIdent, hasCallback := true }
      (fun _ => false) ⟨[probeFar], []⟩ probeFar (by decide) (by decide) (by decide)
      (by decide) (by decide) (fun b => rfl) (by decide)).1⟩

end SteamAudio
